import Mathlib

/-!
Adaptive integer arithmetic coder.

A shallow embedding of `Data_Compression/Arithmetic_Coding_using_Integer_Arithmetic.c`.

Conventions of the embedding:

* `unsigned int` values (`low`, `high`, `value`) are natural numbers reduced
  modulo `2 ^ 32` after every assignment;
* `long` intermediates (`range`, the products) are exact natural numbers: they
  stay far below `2 ^ 63`;
* the `int` globals `buffer`, `e3_counter` and the tables `cum_freq`, `freq`
  never become negative in the program and are natural numbers (`e3_counter`
  is not bounded by `INT_MAX`); `bits_to_go` is decremented without a guard
  and is an integer;
* a C array is the list of its entries; every index used by the program is
  within bounds;
* a `FILE` opened for reading is the list of bytes still to be read, a `FILE`
  opened for writing is the list of bytes written so far;
* `for (;;)` loops take a fuel argument and return `none` when it runs out.
-/

namespace ArithCoding

/-! ## Constants -/

abbrev CODE_VALUE_BITS : Nat := 16
abbrev MAX_VALUE : Nat := (1 <<< CODE_VALUE_BITS) - 1
abbrev MAX_FREQ : Nat := 16383
abbrev ONE_QUARTER : Nat := 1 <<< (CODE_VALUE_BITS - 2)
abbrev HALF : Nat := 2 * ONE_QUARTER
abbrev THREE_QUARTERS : Nat := 3 * ONE_QUARTER
abbrev NO_OF_CHARS : Nat := 256
abbrev EOF_SYMBOL : Nat := NO_OF_CHARS
abbrev NO_OF_SYMBOLS : Nat := NO_OF_CHARS + 1

/-- Modulus of the C type `unsigned int`. -/
abbrev UINT_MOD : Nat := 4294967296

/-! ## Bit I/O -/

/-- The globals `buffer`, `bits_to_go` and `e3_counter`. -/
structure BitState where
  buffer : Nat
  bits_to_go : Int
  e3_counter : Nat

/-- The call `putc(c, f)`: the byte written is `c` converted to `unsigned char`. -/
def putc (c : Nat) (f : List Nat) : List Nat := f ++ [c % 256]

/-- The call `getc(f)`: `none` stands for `EOF`. -/
def getc (f : List Nat) : Option Nat × List Nat :=
  match f with
  | [] => (none, [])
  | c :: cs => (some c, cs)

/-- The function `output_bit(bit, f)`. -/
def output_bit (bit : Nat) (g : BitState) (f : List Nat) : BitState × List Nat :=
  let buffer := g.buffer >>> 1
  let buffer := if bit ≠ 0 then buffer ||| 0x80 else buffer
  let bits_to_go := g.bits_to_go - 1
  if bits_to_go = 0 then
    ({ g with buffer := buffer, bits_to_go := 8 }, putc buffer f)
  else
    ({ g with buffer := buffer, bits_to_go := bits_to_go }, f)

/-- The function `input_bit(f)`: the returned bit, the globals and the file. -/
def input_bit (g : BitState) (f : List Nat) : Nat × BitState × List Nat :=
  let gf : BitState × List Nat :=
    if g.bits_to_go = 0 then
      let r := getc f
      let buffer := match r.1 with
        | none => 0
        | some c => c
      ({ g with buffer := buffer, bits_to_go := 8 }, r.2)
    else (g, f)
  let t := gf.1.buffer &&& 1
  (t, { gf.1 with buffer := gf.1.buffer >>> 1 }, gf.2)

/-- The C expression `!bit`. -/
def lnot (bit : Nat) : Nat := if bit = 0 then 1 else 0

/-- The `while (e3_counter > 0)` loop of `bits_plus_follow`, by recursion on
the value of `e3_counter`. -/
def follow_loop (bit : Nat) : Nat → BitState → List Nat → BitState × List Nat
  | 0, g, f => ({ g with e3_counter := 0 }, f)
  | n + 1, g, f =>
    let r := output_bit (lnot bit) g f
    follow_loop bit n { r.1 with e3_counter := n } r.2

/-- The function `bits_plus_follow(bit, f)`. -/
def bits_plus_follow (bit : Nat) (g : BitState) (f : List Nat) : BitState × List Nat :=
  let r := output_bit bit g f
  follow_loop bit r.1.e3_counter r.1 r.2

/-! ## Adaptive model -/

/-- The tables `cum_freq` and `freq`, arrays of `NO_OF_SYMBOLS + 1` entries. -/
structure Model where
  cum_freq : List Nat
  freq : List Nat
deriving DecidableEq

/-- The array read `a[i]`. -/
def rd (a : List Nat) (i : Nat) : Nat := a.getD i 0

/-- The array assignment `a[i] = v`. -/
def wr (a : List Nat) (i v : Nat) : List Nat := a.set i v

/-- The loop `for (i = 0; i <= NO_OF_SYMBOLS; i++)` of `initialize_model`:
`n` iterations remain and the loop variable is `i`. -/
def init_loop : Nat → Nat → Model → Model
  | 0, _, m => m
  | n + 1, i, m =>
    init_loop n (i + 1)
      { freq := wr m.freq i 1, cum_freq := wr m.cum_freq i (NO_OF_SYMBOLS - i) }

/-- The function `initialize_model()`, run on the tables `m0`. -/
def initialize_model_from (m0 : Model) : Model :=
  let m := init_loop (NO_OF_SYMBOLS + 1) 0 m0
  { m with freq := wr m.freq 0 0 }

/-- The tables as the program starts: zero-initialised globals. -/
def zero_model : Model :=
  { cum_freq := List.replicate (NO_OF_SYMBOLS + 1) 0, freq := List.replicate (NO_OF_SYMBOLS + 1) 0 }

/-- The function `initialize_model()`, on the zero-initialised globals. -/
def initialize_model : Model := initialize_model_from zero_model

/-- The rescale loop `for (i = NO_OF_SYMBOLS; i >= 0; i--)` of `update_model`,
from loop variable `i` down to `0`, threading the local `cum`. -/
def rescale_loop : Nat → Model → Nat → Model × Nat
  | 0, m, cum =>
    let fr := wr m.freq 0 ((rd m.freq 0 + 1) / 2)
    ({ freq := fr, cum_freq := wr m.cum_freq 0 cum }, cum + rd fr 0)
  | i + 1, m, cum =>
    let fr := wr m.freq (i + 1) ((rd m.freq (i + 1) + 1) / 2)
    rescale_loop i { freq := fr, cum_freq := wr m.cum_freq (i + 1) cum } (cum + rd fr (i + 1))

/-- The loop `for (i = symbol; i >= 0; i--) cum_freq[i]++`. -/
def incr_loop : Nat → Model → Model
  | 0, m => { m with cum_freq := wr m.cum_freq 0 (rd m.cum_freq 0 + 1) }
  | i + 1, m =>
    incr_loop i { m with cum_freq := wr m.cum_freq (i + 1) (rd m.cum_freq (i + 1) + 1) }

/-- The function `update_model(symbol)`. -/
def update_model (symbol : Nat) (m : Model) : Model :=
  let m := if rd m.cum_freq 0 ≥ MAX_FREQ then (rescale_loop NO_OF_SYMBOLS m 0).1 else m
  incr_loop symbol m

/-! ## Interval arithmetic shared by `encode` and `decode` -/

/-- Subtraction of two `unsigned int` values. -/
def usub (a b : Nat) : Nat := (a + UINT_MOD - b) % UINT_MOD

/-- The statement `range = (long)(high - low) + 1`. -/
def range_of (low high : Nat) : Nat := usub high low + 1

/-- The statement `high = low + (range * cum_freq[symbol] / cum_freq[0]) - 1`. -/
def narrow_high (m : Model) (low range symbol : Nat) : Nat :=
  (low + range * rd m.cum_freq symbol / rd m.cum_freq 0 + UINT_MOD - 1) % UINT_MOD

/-- The statement `low = low + (range * cum_freq[symbol + 1] / cum_freq[0])`. -/
def narrow_low (m : Model) (low range symbol : Nat) : Nat :=
  (low + range * rd m.cum_freq (symbol + 1) / rd m.cum_freq 0) % UINT_MOD

/-! ## Encoder -/

/-- The locals `low`, `high` of `encode`, the bit I/O globals and the output file. -/
structure EncState where
  low : Nat
  high : Nat
  g : BitState
  out : List Nat

/-- The renormalization loop of `encode`. -/
def encode_renorm : Nat → EncState → Option EncState
  | 0, _ => none
  | fuel + 1, s =>
    if s.high < HALF then
      let r := bits_plus_follow 0 s.g s.out
      encode_renorm fuel
        { low := 2 * s.low % UINT_MOD, high := (2 * s.high + 1) % UINT_MOD, g := r.1, out := r.2 }
    else if s.low ≥ HALF then
      let r := bits_plus_follow 1 s.g s.out
      encode_renorm fuel
        { low := 2 * usub s.low HALF % UINT_MOD, high := (2 * usub s.high HALF + 1) % UINT_MOD,
          g := r.1, out := r.2 }
    else if s.low ≥ ONE_QUARTER ∧ s.high < THREE_QUARTERS then
      encode_renorm fuel
        { low := 2 * usub s.low ONE_QUARTER % UINT_MOD,
          high := (2 * usub s.high ONE_QUARTER + 1) % UINT_MOD,
          g := { s.g with e3_counter := s.g.e3_counter + 1 }, out := s.out }
    else some s

/-- One pass through the body of the main loop of `encode` for `symbol`, up
to the call of `update_model`. -/
def encode_symbol (fuel : Nat) (symbol : Nat) (m : Model) (s : EncState) : Option EncState :=
  let range := range_of s.low s.high
  let high := narrow_high m s.low range symbol
  let low := narrow_low m s.low range symbol
  encode_renorm fuel { s with low := low, high := high }

/-- The statement `putc(buffer >> bits_to_go, out)` flushing the buffer at the
end of `encode`. -/
def flush_buffer (g : BitState) (f : List Nat) : List Nat :=
  putc (g.buffer >>> g.bits_to_go.toNat) f

/-- The termination and flush at the end of `encode`. -/
def encode_finish (s : EncState) : List Nat :=
  let g := { s.g with e3_counter := s.g.e3_counter + 1 }
  let r := if s.low < ONE_QUARTER then bits_plus_follow 0 g s.out else bits_plus_follow 1 g s.out
  flush_buffer r.1 r.2

/-- The main loop of `encode`, by recursion on the input file: `getc`
returns the next byte, or `EOF` at the end of the file, which is turned into
`EOF_SYMBOL`. The call `update_model(EOF_SYMBOL)` made just before the loop is
left is dropped: the tables are not read afterwards. -/
def encode_loop (fuel : Nat) : List Nat → Model → EncState → Option (List Nat)
  | [], m, s =>
    (encode_symbol fuel EOF_SYMBOL m s).map encode_finish
  | c :: cs, m, s =>
    match encode_symbol fuel c m s with
    | none => none
    | some s1 =>
      if c = EOF_SYMBOL then some (encode_finish s1)
      else encode_loop fuel cs (update_model c m) s1

/-- The function `encode(in, out)` started with `buffer` holding `buffer0`;
`fuel` bounds every renormalization loop. -/
def encode_from (buffer0 : Nat) (fuel : Nat) (input : List Nat) : Option (List Nat) :=
  encode_loop fuel input initialize_model
    { low := 0, high := MAX_VALUE,
      g := { buffer := buffer0, bits_to_go := 8, e3_counter := 0 }, out := [] }

/-- The function `encode(in, out)` in the program, where the global `buffer`
still holds its initial value `0`. -/
def encode (fuel : Nat) (input : List Nat) : Option (List Nat) :=
  encode_from 0 fuel input

/-! ## Decoder -/

/-- The locals `low`, `high`, `value` of `decode`, the bit I/O globals and
the input file. -/
structure DecState where
  low : Nat
  high : Nat
  value : Nat
  g : BitState
  inp : List Nat

/-- The loop `for (i = 0; i < CODE_VALUE_BITS; i++)` filling `value`. -/
def fill_value : Nat → Nat → BitState → List Nat → Nat × BitState × List Nat
  | 0, value, g, f => (value, g, f)
  | n + 1, value, g, f =>
    let r := input_bit g f
    fill_value n ((2 * value + r.1) % UINT_MOD) r.2.1 r.2.2

/-- The statement `count = ((((long)(value - low) + 1) * cum_freq[0]) - 1) / range`. -/
def count_of (m : Model) (low value range : Nat) : Nat :=
  ((usub value low + 1) * rd m.cum_freq 0 - 1) / range

/-- The search loop `for (symbol = 0; symbol < NO_OF_SYMBOLS; symbol++)` of
`decode`: `n` iterations remain and the loop variable is `symbol`. -/
def locate_loop (m : Model) (count : Nat) : Nat → Nat → Nat
  | 0, symbol => symbol
  | n + 1, symbol =>
    if rd m.cum_freq (symbol + 1) ≤ count then symbol
    else locate_loop m count n (symbol + 1)

/-- The symbol found by the search loop of `decode`. -/
def locate (m : Model) (count : Nat) : Nat :=
  locate_loop m count NO_OF_SYMBOLS 0

/-- The renormalization loop of `decode`. -/
def decode_renorm : Nat → DecState → Option DecState
  | 0, _ => none
  | fuel + 1, s =>
    if s.high < HALF then
      let r := input_bit s.g s.inp
      decode_renorm fuel
        { low := 2 * s.low % UINT_MOD, high := (2 * s.high + 1) % UINT_MOD,
          value := (2 * s.value + r.1) % UINT_MOD, g := r.2.1, inp := r.2.2 }
    else if s.low ≥ HALF then
      let r := input_bit s.g s.inp
      decode_renorm fuel
        { low := 2 * usub s.low HALF % UINT_MOD, high := (2 * usub s.high HALF + 1) % UINT_MOD,
          value := (2 * usub s.value HALF + r.1) % UINT_MOD, g := r.2.1, inp := r.2.2 }
    else if s.low ≥ ONE_QUARTER ∧ s.high < THREE_QUARTERS then
      let r := input_bit s.g s.inp
      decode_renorm fuel
        { low := 2 * usub s.low ONE_QUARTER % UINT_MOD,
          high := (2 * usub s.high ONE_QUARTER + 1) % UINT_MOD,
          value := (2 * usub s.value ONE_QUARTER + r.1) % UINT_MOD, g := r.2.1, inp := r.2.2 }
    else some s

/-- One pass through the body of the main loop of `decode` after `symbol`
has been found and written, up to the call of `update_model`. -/
def decode_symbol (fuel : Nat) (symbol : Nat) (m : Model) (s : DecState) : Option DecState :=
  let range := range_of s.low s.high
  let high := narrow_high m s.low range symbol
  let low := narrow_low m s.low range symbol
  decode_renorm fuel { s with low := low, high := high }

/-- The main loop of `decode`; `rfuel` bounds every renormalization loop and
the first argument bounds the number of passes. -/
def decode_loop (rfuel : Nat) : Nat → Model → DecState → List Nat → Option (List Nat)
  | 0, _, _, _ => none
  | fuel + 1, m, s, out =>
    let range := range_of s.low s.high
    let count := count_of m s.low s.value range
    let symbol := locate m count
    if symbol = EOF_SYMBOL then some out
    else
      match decode_symbol rfuel symbol m s with
      | none => none
      | some s1 => decode_loop rfuel fuel (update_model symbol m) s1 (putc symbol out)

/-- The function `decode(in, out)` started with `buffer` holding `buffer0`
and `e3_counter` holding `e0`. -/
def decode_from (buffer0 e0 : Nat) (fuel : Nat) (input : List Nat) : Option (List Nat) :=
  let v := fill_value CODE_VALUE_BITS 0
    { buffer := buffer0, bits_to_go := 0, e3_counter := e0 } input
  decode_loop fuel fuel initialize_model
    { low := 0, high := MAX_VALUE, value := v.1, g := v.2.1, inp := v.2.2 } []

/-- The function `decode(in, out)` in the program, on the initial globals. -/
def decode (fuel : Nat) (input : List Nat) : Option (List Nat) :=
  decode_from 0 0 fuel input

end ArithCoding

/-! ## Radix sort utility (`src/Algorithms/radix_sort.c`)

An `int` is an `Int`; the only arithmetic that can leave the range of `int`
is `exp *= 10`, which is checked against `INT_MAX`. An array is a `List`; an
index outside the array, a read of a cell of `output` that was never written
and a signed overflow make the run undefined, which is the result `none`. -/

namespace RadixSort

abbrev INT_MAX : Int := 2147483647

/-- Element `a[i]` of an `int` array. -/
def rd (a : List Int) (i : Nat) : Int := a.getD i 0

/-- Assignment `a[i] = v`. -/
def wr (a : List Int) (i : Nat) (v : Int) : List Int := a.set i v

/-- Loop of `getMax` from index `i` with `k` passes left:
`for (i = 1; i < n; i++) if (arr[i] > max) max = arr[i];`. -/
def getMax_loop (arr : List Int) : Nat → Nat → Int → Int
  | 0, _, max => max
  | k + 1, i, max => getMax_loop arr k (i + 1) (if rd arr i > max then rd arr i else max)

/-- Function `getMax(arr, n)`. -/
def getMax (arr : List Int) (n : Nat) : Int := getMax_loop arr (n - 1) 1 (rd arr 0)

/-- Index expression `(x / exp) % 10` of `countSort`, with the truncating
division and remainder of C. -/
def digit (x exp : Int) : Int := Int.tmod (Int.tdiv x exp) 10

/-- First loop of `countSort` from index `i` with `k` passes left:
`for (i = 0; i < n; i++) count[(arr[i] / exp) % 10]++;`. -/
def count_loop (arr : List Int) (exp : Int) : Nat → Nat → List Int → Option (List Int)
  | 0, _, count => some count
  | k + 1, i, count =>
    if 0 ≤ digit (rd arr i) exp ∧ digit (rd arr i) exp < 10 then
      count_loop arr exp k (i + 1)
        (wr count (digit (rd arr i) exp).toNat (rd count (digit (rd arr i) exp).toNat + 1))
    else none

/-- Second loop of `countSort` from index `i` with `k` passes left:
`for (i = 1; i < 10; i++) count[i] += count[i - 1];`. -/
def sum_loop : Nat → Nat → List Int → List Int
  | 0, _, count => count
  | k + 1, i, count => sum_loop k (i + 1) (wr count i (rd count i + rd count (i - 1)))

/-- Third loop of `countSort`, with `i + 1` passes left, the next one for
index `i`: `for (i = n - 1; i >= 0; i--) { output[count[d] - 1] = arr[i]; count[d]--; }`
where `d = (arr[i] / exp) % 10`. A cell of `output` holds `none` until it is
written. -/
def place_loop (arr : List Int) (n : Nat) (exp : Int) :
    Nat → List Int → List (Option Int) → Option (List Int × List (Option Int))
  | 0, count, output => some (count, output)
  | i + 1, count, output =>
    if 0 ≤ digit (rd arr i) exp ∧ digit (rd arr i) exp < 10 then
      if 0 ≤ rd count (digit (rd arr i) exp).toNat - 1
          ∧ rd count (digit (rd arr i) exp).toNat - 1 < n then
        place_loop arr n exp i
          (wr count (digit (rd arr i) exp).toNat (rd count (digit (rd arr i) exp).toNat - 1))
          (output.set (rd count (digit (rd arr i) exp).toNat - 1).toNat (some (rd arr i)))
      else none
    else none

/-- Fourth loop of `countSort` from index `i` with `k` passes left:
`for (i = 0; i < n; i++) arr[i] = output[i];`. -/
def copy_loop (output : List (Option Int)) : Nat → Nat → List Int → Option (List Int)
  | 0, _, arr => some arr
  | k + 1, i, arr =>
    match output.getD i none with
    | some v => copy_loop output k (i + 1) (wr arr i v)
    | none => none

/-- Function `countSort(arr, n, exp)`; the result is the new content of
`arr`. The array `output` of `n` cells starts unwritten and `count` starts as
ten zeros. -/
def countSort (arr : List Int) (n : Nat) (exp : Int) : Option (List Int) :=
  match count_loop arr exp n 0 (List.replicate 10 0) with
  | none => none
  | some count =>
    match place_loop arr n exp n (sum_loop 9 1 count) (List.replicate n none) with
    | none => none
    | some r => copy_loop r.2 n 0 arr

/-- Loop of `radixSort`: `for (exp = 1; m / exp > 0; exp *= 10) countSort(arr, n, exp);`
entered with the current `exp`. The step `exp *= 10` is undefined when the
product exceeds `INT_MAX`. -/
def radix_loop (n : Nat) (m : Int) : Nat → Int → List Int → Option (List Int)
  | 0, _, _ => none
  | fuel + 1, exp, arr =>
    if Int.tdiv m exp > 0 then
      match countSort arr n exp with
      | none => none
      | some arr2 =>
        if exp * 10 ≤ INT_MAX then radix_loop n m fuel (exp * 10) arr2 else none
    else some arr

/-- Function `radixSort(arr, n)`; the result is the new content of `arr`. -/
def radixSort (fuel : Nat) (arr : List Int) (n : Nat) : Option (List Int) :=
  radix_loop n (getMax arr n) fuel 1 arr

/-- The elements of `arr` whose digit at `exp` is `k`, in the order of `arr`. -/
def with_digit (exp : Int) (k : Nat) (arr : List Int) : List Int :=
  arr.filter (fun x => decide (digit x exp = (k : Int)))

/-- The elements of `arr` whose digit at `exp` is below `k`, in the order of
`arr`. -/
def below_digit (exp : Int) (k : Nat) (arr : List Int) : List Int :=
  arr.filter (fun x => decide (digit x exp < (k : Int)))

/-- The groups of digits `0 .. k - 1` one after the other. -/
def groups (exp : Int) (arr : List Int) (k : Nat) : List Int :=
  (List.range k).flatMap (fun j => with_digit exp j arr)

/-- Stable sort of `arr` by the digit at `exp`: the elements with digit `0`
in their original order, then those with digit `1`, up to digit `9`. -/
def stable_by_digit (exp : Int) (arr : List Int) : List Int := groups exp arr 10

end RadixSort


/-! ## Notions used to state the properties -/

namespace ArithCoding

/-- The model states reachable from `initialize_model` by calls of
`update_model` with symbols in `0..256`. -/
inductive Reachable : Model → Prop
  | init : Reachable initialize_model
  | step {m : Model} (symbol : Nat) :
      Reachable m → symbol ≤ EOF_SYMBOL → Reachable (update_model symbol m)

/-- The facts about the tables that every reachable model state satisfies:
both arrays keep their `NO_OF_SYMBOLS + 1` entries, `freq` keeps the values
written by `initialize_model`, `cum_freq` ends in `0`, decreases strictly and
starts between `NO_OF_SYMBOLS` and `MAX_FREQ`. -/
structure ModelInv (m : Model) : Prop where
  len_cum : m.cum_freq.length = NO_OF_SYMBOLS + 1
  len_freq : m.freq.length = NO_OF_SYMBOLS + 1
  freq_zero : rd m.freq 0 = 0
  freq_one : ∀ k, 1 ≤ k → k ≤ NO_OF_SYMBOLS → rd m.freq k = 1
  cum_last : rd m.cum_freq NO_OF_SYMBOLS = 0
  cum_desc : ∀ i, i < NO_OF_SYMBOLS → rd m.cum_freq (i + 1) < rd m.cum_freq i
  total_ge : NO_OF_SYMBOLS ≤ rd m.cum_freq 0
  total_le : rd m.cum_freq 0 ≤ MAX_FREQ

/-- The state of the interval that a renormalization loop leaves behind:
`low < high <= 0xFFFF` and none of the conditions E1 (`high < HALF`),
E2 (`low >= HALF`), E3 (`low >= ONE_QUARTER` and `high < THREE_QUARTERS`) holds. -/
def Renormalized (low high : Nat) : Prop :=
  low < high ∧ high ≤ MAX_VALUE ∧ ¬ high < HALF ∧ ¬ low ≥ HALF ∧
    ¬ (low ≥ ONE_QUARTER ∧ high < THREE_QUARTERS)

/-- Bit `i` of `c`, as `0` or `1`. -/
def bit_of (c i : Nat) : Nat := (c.testBit i).toNat

/-- The eight bits of a byte in the order in which `input_bit` hands them
out: least significant bit first. -/
def byte_bits (c : Nat) : List Nat := (List.range 8).map (bit_of c)

/-- The bits that `output_bit` has collected in `buffer` and not yet written:
there are `8 - bits_to_go` of them, the oldest at position `bits_to_go`. -/
def pending_bits (g : BitState) : List Nat :=
  (List.range (8 - g.bits_to_go).toNat).map (fun i => bit_of g.buffer (g.bits_to_go.toNat + i))

/-- The bit stream written so far: the bits of the bytes in the file,
followed by the bits still held in `buffer`. -/
def bits_written (g : BitState) (f : List Nat) : List Nat :=
  f.flatMap byte_bits ++ pending_bits g

/-- Successive calls `output_bit(b_1, f)`, ..., `output_bit(b_n, f)`. -/
def write_bits : List Nat → BitState → List Nat → BitState × List Nat
  | [], g, f => (g, f)
  | b :: bs, g, f =>
    let r := output_bit b g f
    write_bits bs r.1 r.2

/-- The bits returned by `n` successive calls `input_bit(f)`. -/
def read_bits : Nat → BitState → List Nat → List Nat
  | 0, _, _ => []
  | n + 1, g, f =>
    let r := input_bit g f
    r.1 :: read_bits n r.2.1 r.2.2

/-- The states of the output side of the bit channel that `encode` runs
through: between one and eight free positions and a buffer of one byte. -/
structure ChannelOK (g : BitState) : Prop where
  pos : 1 ≤ g.bits_to_go
  le : g.bits_to_go ≤ 8
  byte : g.buffer < 256

end ArithCoding

namespace ArithCoding

/-- The tables after the calls `update_model(s_1)`, ..., `update_model(s_n)`
made in that order. -/
def run_updates : List Nat → Model → Model
  | [], m => m
  | s :: ss, m => run_updates ss (update_model s m)

/-- The tables after `initialize_model()` and 16126 calls `update_model(0)`. -/
def long_run_model : Model := run_updates (List.replicate 16126 0) initialize_model

/-- The tables and the interval at the head of the main loop of `encode` or
of `decode`: the start state, and the state after one more pass for a symbol
in `0..256` (narrowing, renormalization, `update_model`), with any bit I/O
state, files and value register. -/
inductive CoderReach : Model → Nat → Nat → Prop
  | start : CoderReach initialize_model 0 MAX_VALUE
  | enc_step {m : Model} {low high : Nat} (fuel symbol : Nat) (g : BitState) (out : List Nat)
      (r : EncState) :
      CoderReach m low high → symbol ≤ EOF_SYMBOL →
      encode_symbol fuel symbol m { low := low, high := high, g := g, out := out } = some r →
      CoderReach (update_model symbol m) r.low r.high
  | dec_step {m : Model} {low high : Nat} (fuel symbol value : Nat) (g : BitState)
      (inp : List Nat) (r : DecState) :
      CoderReach m low high → symbol ≤ EOF_SYMBOL →
      decode_symbol fuel symbol m
        { low := low, high := high, value := value, g := g, inp := inp } = some r →
      CoderReach (update_model symbol m) r.low r.high

/-- The value that the loop `value = 2 * value + input_bit(in)` of `decode`
builds from the given bits, the first bit ending as the most significant. -/
def value_of_bits (bits : List Nat) : Nat := bits.foldl (fun v b => 2 * v + b) 0

end ArithCoding


/-! ## Array reads and writes -/

namespace ArithCoding

theorem rd_wr (a : List Nat) (i v j : Nat) :
    rd (wr a i v) j = if j = i ∧ i < a.length then v else rd a j := by
  unfold rd wr
  rw [List.getD_eq_getElem?_getD, List.getD_eq_getElem?_getD, List.getElem?_set]
  by_cases h : i = j
  · subst h
    by_cases h2 : i < a.length
    · simp [h2]
    · simp [h2, List.getElem?_eq_none (Nat.le_of_not_lt h2)]
  · have h3 : ¬ j = i := fun e => h e.symm
    simp [h, h3]

theorem length_wr (a : List Nat) (i v : Nat) : (wr a i v).length = a.length := by
  unfold wr
  simp

/-! ## The adaptive model -/

theorem incr_loop_spec (s : Nat) : ∀ m : Model, s < m.cum_freq.length →
    (incr_loop s m).freq = m.freq ∧
    (incr_loop s m).cum_freq.length = m.cum_freq.length ∧
    ∀ j, rd (incr_loop s m).cum_freq j
      = if j ≤ s then rd m.cum_freq j + 1 else rd m.cum_freq j := by
  induction s with
  | zero =>
    intro m hs
    refine ⟨rfl, ?_, ?_⟩
    · simp [incr_loop, length_wr]
    · intro j
      simp only [incr_loop, rd_wr]
      by_cases hj : j = 0
      · simp [hj, hs]
      · have : ¬ j ≤ 0 := by omega
        simp [hj, this]
  | succ i ih =>
    intro m hs
    have hlen : i < (wr m.cum_freq (i + 1) (rd m.cum_freq (i + 1) + 1)).length := by
      rw [length_wr]; omega
    obtain ⟨h1, h2, h3⟩ := ih
      { m with cum_freq := wr m.cum_freq (i + 1) (rd m.cum_freq (i + 1) + 1) } hlen
    refine ⟨?_, ?_, ?_⟩
    · simpa [incr_loop] using h1
    · simp only [incr_loop]
      rw [h2, length_wr]
    · intro j
      simp only [incr_loop]
      rw [h3 j, rd_wr]
      by_cases hj : j ≤ i
      · have : ¬ j = i + 1 := by omega
        have : j ≤ i + 1 := by omega
        simp [*]
      · by_cases hj2 : j = i + 1
        · simp [hj2, hs]
        · have : ¬ j ≤ i + 1 := by omega
          simp [*]

theorem rescale_loop_spec (i : Nat) : ∀ (m : Model) (cum : Nat),
    i < m.cum_freq.length → i < m.freq.length →
    rd m.freq 0 = 0 → (∀ k, 1 ≤ k → k ≤ i → rd m.freq k = 1) →
    (rescale_loop i m cum).1.freq.length = m.freq.length ∧
    (rescale_loop i m cum).1.cum_freq.length = m.cum_freq.length ∧
    (∀ j, rd (rescale_loop i m cum).1.freq j = rd m.freq j) ∧
    ∀ j, rd (rescale_loop i m cum).1.cum_freq j
      = if j ≤ i then cum + (i - j) else rd m.cum_freq j := by
  induction i with
  | zero =>
    intro m cum hc hf h0 _
    refine ⟨?_, ?_, ?_, ?_⟩
    · simp [rescale_loop, length_wr]
    · simp [rescale_loop, length_wr]
    · intro j
      simp only [rescale_loop, rd_wr, h0]
      by_cases hj : j = 0
      · simp [hj, hf, h0]
      · simp [hj]
    · intro j
      simp only [rescale_loop, rd_wr]
      by_cases hj : j = 0
      · simp [hj, hc]
      · have : ¬ j ≤ 0 := by omega
        simp [hj, this]
  | succ i ih =>
    intro m cum hc hf h0 h1
    have e1 : rd m.freq (i + 1) = 1 := h1 (i + 1) (by omega) (Nat.le_refl _)
    have hfr : ∀ j, rd (wr m.freq (i + 1) ((rd m.freq (i + 1) + 1) / 2)) j = rd m.freq j := by
      intro j
      rw [rd_wr, e1]
      by_cases hj : j = i + 1
      · simp [hj, hf, e1]
      · simp [hj]
    obtain ⟨a1, a2, a3, a4⟩ := ih
      { freq := wr m.freq (i + 1) ((rd m.freq (i + 1) + 1) / 2),
        cum_freq := wr m.cum_freq (i + 1) cum }
      (cum + rd (wr m.freq (i + 1) ((rd m.freq (i + 1) + 1) / 2)) (i + 1))
      (by simp only [length_wr]; omega) (by simp only [length_wr]; omega)
      (by rw [hfr]; exact h0)
      (by intro k hk1 hk2; rw [hfr]; exact h1 k hk1 (by omega))
    refine ⟨?_, ?_, ?_, ?_⟩
    · simp only [rescale_loop]; rw [a1, length_wr]
    · simp only [rescale_loop]; rw [a2, length_wr]
    · intro j
      simp only [rescale_loop]; rw [a3 j, hfr]
    · intro j
      simp only [rescale_loop]; rw [a4 j, hfr, e1, rd_wr]
      by_cases hj : j ≤ i
      · have : j ≤ i + 1 := by omega
        simp only [hj, this, if_true]
        omega
      · by_cases hj2 : j = i + 1
        · simp [hj2, hc]
        · have : ¬ j ≤ i + 1 := by omega
          simp [*]

set_option maxRecDepth 100000 in
theorem initialize_model_cum_freq :
    initialize_model.cum_freq = (List.range 258).map (fun i => 257 - i) := by
  decide

set_option maxRecDepth 100000 in
theorem initialize_model_freq :
    initialize_model.freq = 0 :: List.replicate 257 1 := by
  decide

theorem rd_initialize_model_cum_freq (i : Nat) (h : i ≤ 257) :
    rd initialize_model.cum_freq i = 257 - i := by
  rw [initialize_model_cum_freq]
  unfold rd
  rw [List.getD_eq_getElem?_getD, List.getElem?_map, List.getElem?_range (by omega)]
  rfl

theorem rd_initialize_model_freq (k : Nat) (h1 : 1 ≤ k) (h2 : k ≤ 257) :
    rd initialize_model.freq k = 1 := by
  rw [initialize_model_freq]
  obtain ⟨j, rfl⟩ : ∃ j, k = j + 1 := ⟨k - 1, by omega⟩
  unfold rd
  rw [List.getD_eq_getElem?_getD, List.getElem?_cons_succ,
    List.getElem?_replicate]
  have : j < 257 := by omega
  simp [this]

theorem modelInv_initialize_model : ModelInv initialize_model where
  len_cum := by rw [initialize_model_cum_freq, List.length_map, List.length_range]
  len_freq := by rw [initialize_model_freq, List.length_cons, List.length_replicate]
  freq_zero := by rw [initialize_model_freq]; rfl
  freq_one := fun k h1 h2 => rd_initialize_model_freq k h1 h2
  cum_last := by rw [rd_initialize_model_cum_freq 257 (Nat.le_refl _)]
  cum_desc := by
    intro i hi
    have hi2 : i < 257 := hi
    rw [rd_initialize_model_cum_freq (i + 1) (by omega), rd_initialize_model_cum_freq i (by omega)]
    omega
  total_ge := by rw [rd_initialize_model_cum_freq 0 (by omega)]
  total_le := by rw [rd_initialize_model_cum_freq 0 (by omega)]; decide

theorem modelInv_incr_loop (m : Model) (s : Nat) (hs : s ≤ EOF_SYMBOL)
    (len_cum : m.cum_freq.length = NO_OF_SYMBOLS + 1)
    (len_freq : m.freq.length = NO_OF_SYMBOLS + 1)
    (freq_zero : rd m.freq 0 = 0)
    (freq_one : ∀ k, 1 ≤ k → k ≤ NO_OF_SYMBOLS → rd m.freq k = 1)
    (cum_last : rd m.cum_freq NO_OF_SYMBOLS = 0)
    (cum_desc : ∀ i, i < NO_OF_SYMBOLS → rd m.cum_freq (i + 1) < rd m.cum_freq i)
    (total_ge : NO_OF_SYMBOLS ≤ rd m.cum_freq 0)
    (total_lt : rd m.cum_freq 0 < MAX_FREQ) : ModelInv (incr_loop s m) := by
  simp only [EOF_SYMBOL, NO_OF_SYMBOLS, NO_OF_CHARS, MAX_FREQ] at *
  obtain ⟨h1, h2, h3⟩ := incr_loop_spec s m (by rw [len_cum]; omega)
  refine ⟨by rw [h2, len_cum], by rw [h1, len_freq], by rw [h1, freq_zero],
    by rw [h1]; exact freq_one, ?_, ?_, ?_, ?_⟩
  · rw [h3]
    have : ¬ 256 + 1 ≤ s := by omega
    simp only [this, if_false]
    exact cum_last
  · intro i hi
    have := cum_desc i hi
    rw [h3, h3]
    split_ifs <;> omega
  · rw [h3]
    simp only [Nat.zero_le, if_true, NO_OF_SYMBOLS, NO_OF_CHARS]
    omega
  · rw [h3]
    simp only [Nat.zero_le, if_true, MAX_FREQ]
    omega

theorem modelInv_update_model (m : Model) (s : Nat) (hs : s ≤ EOF_SYMBOL)
    (hm : ModelInv m) : ModelInv (update_model s m) := by
  unfold update_model
  by_cases hr : rd m.cum_freq 0 ≥ MAX_FREQ
  · simp only [hr, if_true]
    obtain ⟨a1, a2, a3, a4⟩ := rescale_loop_spec NO_OF_SYMBOLS m 0
      (by rw [hm.len_cum]; omega) (by rw [hm.len_freq]; omega) hm.freq_zero hm.freq_one
    apply modelInv_incr_loop _ s hs
    · rw [a2, hm.len_cum]
    · rw [a1, hm.len_freq]
    · rw [a3]; exact hm.freq_zero
    · intro k h1 h2; rw [a3]; exact hm.freq_one k h1 h2
    · rw [a4]; simp
    · intro i hi
      have hi2 : i < 257 := hi
      rw [a4, a4]
      have e1 : i + 1 ≤ NO_OF_SYMBOLS := hi
      have e2 : i ≤ NO_OF_SYMBOLS := by omega
      simp only [e1, e2, if_true]
      omega
    · rw [a4]; simp
    · rw [a4]; simp [MAX_FREQ, NO_OF_SYMBOLS, NO_OF_CHARS]
  · simp only [hr, if_false]
    exact modelInv_incr_loop m s hs hm.len_cum hm.len_freq hm.freq_zero hm.freq_one
      hm.cum_last hm.cum_desc hm.total_ge (by omega)

theorem modelInv_of_reachable (m : Model) (h : Reachable m) : ModelInv m := by
  induction h with
  | init => exact modelInv_initialize_model
  | step symbol _ hs ih => exact modelInv_update_model _ symbol hs ih

/-- In a model satisfying the invariant `cum_freq` is non-increasing. -/
theorem cum_freq_antitone (m : Model) (hm : ModelInv m) (i d : Nat)
    (h : i + d ≤ NO_OF_SYMBOLS) : rd m.cum_freq (i + d) ≤ rd m.cum_freq i := by
  induction d with
  | zero => exact Nat.le_refl _
  | succ d ih =>
    have h1 := ih (by omega)
    have h2 := hm.cum_desc (i + d) (by omega)
    have e : i + (d + 1) = i + d + 1 := by omega
    rw [e]
    omega

theorem cum_freq_le_of_le (m : Model) (hm : ModelInv m) (i j : Nat)
    (hij : i ≤ j) (hj : j ≤ NO_OF_SYMBOLS) : rd m.cum_freq j ≤ rd m.cum_freq i := by
  have := cum_freq_antitone m hm i (j - i) (by omega)
  have e : i + (j - i) = j := by omega
  rwa [e] at this

theorem locate_loop_spec (m : Model) (hm : ModelInv m) (count : Nat) :
    ∀ n symbol, symbol + n = NO_OF_SYMBOLS → count < rd m.cum_freq symbol →
      symbol ≤ locate_loop m count n symbol ∧
      locate_loop m count n symbol ≤ EOF_SYMBOL ∧
      rd m.cum_freq (locate_loop m count n symbol + 1) ≤ count ∧
      count < rd m.cum_freq (locate_loop m count n symbol) := by
  intro n
  induction n with
  | zero =>
    intro symbol h1 h2
    have e : symbol = NO_OF_SYMBOLS := by omega
    rw [e, hm.cum_last] at h2
    omega
  | succ n ih =>
    intro symbol h1 h2
    simp only [locate_loop]
    by_cases hc : rd m.cum_freq (symbol + 1) ≤ count
    · rw [if_pos hc]
      simp only [NO_OF_SYMBOLS, NO_OF_CHARS] at h1
      exact ⟨Nat.le_refl _, by simp only [EOF_SYMBOL, NO_OF_CHARS]; omega, hc, h2⟩
    · rw [if_neg hc]
      obtain ⟨a1, a2, a3, a4⟩ := ih (symbol + 1) (by omega) (by omega)
      exact ⟨by omega, a2, a3, a4⟩

theorem locate_spec (m : Model) (hm : ModelInv m) (count : Nat)
    (hc : count < rd m.cum_freq 0) :
    locate m count ≤ EOF_SYMBOL ∧
    rd m.cum_freq (locate m count + 1) ≤ count ∧
    count < rd m.cum_freq (locate m count) := by
  obtain ⟨_, a2, a3, a4⟩ := locate_loop_spec m hm count NO_OF_SYMBOLS 0 (by omega) hc
  exact ⟨a2, a3, a4⟩

/-- At most one symbol owns a given count. -/
theorem owner_unique (m : Model) (hm : ModelInv m) (count s t : Nat)
    (hs : s ≤ EOF_SYMBOL) (ht : t ≤ EOF_SYMBOL)
    (hs1 : rd m.cum_freq (s + 1) ≤ count) (hs2 : count < rd m.cum_freq s)
    (ht1 : rd m.cum_freq (t + 1) ≤ count) (ht2 : count < rd m.cum_freq t) : t = s := by
  simp only [EOF_SYMBOL, NO_OF_CHARS] at hs ht
  rcases Nat.lt_trichotomy t s with h | h | h
  · have := cum_freq_le_of_le m hm (t + 1) s (by omega)
      (by simp only [NO_OF_SYMBOLS, NO_OF_CHARS]; omega)
    omega
  · exact h
  · have := cum_freq_le_of_le m hm (s + 1) t (by omega)
      (by simp only [NO_OF_SYMBOLS, NO_OF_CHARS]; omega)
    omega

theorem locate_eq_of_owner (m : Model) (hm : ModelInv m) (count s : Nat)
    (hs : s ≤ EOF_SYMBOL)
    (hs1 : rd m.cum_freq (s + 1) ≤ count) (hs2 : count < rd m.cum_freq s) :
    locate m count = s := by
  have h0 : count < rd m.cum_freq 0 :=
    Nat.lt_of_lt_of_le hs2 (cum_freq_le_of_le m hm 0 s (Nat.zero_le _)
      (by simp only [EOF_SYMBOL, NO_OF_SYMBOLS, NO_OF_CHARS] at *; omega))
  obtain ⟨a1, a2, a3⟩ := locate_spec m hm count h0
  exact owner_unique m hm count s (locate m count) hs a1 hs1 hs2 a2 a3

end ArithCoding

/-! ## The interval engine -/

namespace ArithCoding

theorem MAX_VALUE_eq : MAX_VALUE = 65535 := by decide
theorem ONE_QUARTER_eq : ONE_QUARTER = 16384 := by decide
theorem HALF_eq : HALF = 32768 := by decide
theorem THREE_QUARTERS_eq : THREE_QUARTERS = 49152 := by decide

theorem renormalized_iff (low high : Nat) :
    Renormalized low high ↔
      low < high ∧ high ≤ 65535 ∧ ¬ high < 32768 ∧ ¬ low ≥ 32768 ∧
        ¬ (low ≥ 16384 ∧ high < 49152) := by
  unfold Renormalized
  rw [MAX_VALUE_eq, HALF_eq, ONE_QUARTER_eq, THREE_QUARTERS_eq]

theorem encode_renorm_post : ∀ (fuel : Nat) (s : EncState),
    s.low ≤ s.high → s.high ≤ 65535 → 65536 < (s.high - s.low + 1) * 2 ^ fuel →
    ∃ r, encode_renorm fuel s = some r ∧ Renormalized r.low r.high := by
  intro fuel
  induction fuel with
  | zero =>
    intro s h1 h2 h3
    omega
  | succ fuel ih =>
    intro s h1 h2 h3
    rw [pow_succ'] at h3
    simp only [encode_renorm, HALF_eq, ONE_QUARTER_eq, THREE_QUARTERS_eq, usub, UINT_MOD]
    by_cases c1 : s.high < 32768
    · rw [if_pos c1]
      apply ih
      · show 2 * s.low % 4294967296 ≤ (2 * s.high + 1) % 4294967296
        omega
      · show (2 * s.high + 1) % 4294967296 ≤ 65535
        omega
      · show 65536 < ((2 * s.high + 1) % 4294967296 - 2 * s.low % 4294967296 + 1) * 2 ^ fuel
        have e : (2 * s.high + 1) % 4294967296 - 2 * s.low % 4294967296 + 1
            = (s.high - s.low + 1) * 2 := by omega
        rw [e, Nat.mul_assoc]
        exact h3
    · rw [if_neg c1]
      by_cases c2 : s.low ≥ 32768
      · rw [if_pos c2]
        apply ih
        · show 2 * ((s.low + 4294967296 - 32768) % 4294967296) % 4294967296
            ≤ (2 * ((s.high + 4294967296 - 32768) % 4294967296) + 1) % 4294967296
          omega
        · show (2 * ((s.high + 4294967296 - 32768) % 4294967296) + 1) % 4294967296 ≤ 65535
          omega
        · show 65536 < ((2 * ((s.high + 4294967296 - 32768) % 4294967296) + 1) % 4294967296
            - 2 * ((s.low + 4294967296 - 32768) % 4294967296) % 4294967296 + 1) * 2 ^ fuel
          have e : (2 * ((s.high + 4294967296 - 32768) % 4294967296) + 1) % 4294967296
            - 2 * ((s.low + 4294967296 - 32768) % 4294967296) % 4294967296 + 1
              = (s.high - s.low + 1) * 2 := by omega
          rw [e, Nat.mul_assoc]
          exact h3
      · rw [if_neg c2]
        by_cases c3 : s.low ≥ 16384 ∧ s.high < 49152
        · rw [if_pos c3]
          apply ih
          · show 2 * ((s.low + 4294967296 - 16384) % 4294967296) % 4294967296
              ≤ (2 * ((s.high + 4294967296 - 16384) % 4294967296) + 1) % 4294967296
            omega
          · show (2 * ((s.high + 4294967296 - 16384) % 4294967296) + 1) % 4294967296 ≤ 65535
            omega
          · show 65536 < ((2 * ((s.high + 4294967296 - 16384) % 4294967296) + 1) % 4294967296
              - 2 * ((s.low + 4294967296 - 16384) % 4294967296) % 4294967296 + 1) * 2 ^ fuel
            have e : (2 * ((s.high + 4294967296 - 16384) % 4294967296) + 1) % 4294967296
              - 2 * ((s.low + 4294967296 - 16384) % 4294967296) % 4294967296 + 1
                = (s.high - s.low + 1) * 2 := by omega
            rw [e, Nat.mul_assoc]
            exact h3
        · rw [if_neg c3]
          refine ⟨s, rfl, ?_⟩
          rw [renormalized_iff]
          omega

theorem decode_renorm_post : ∀ (fuel : Nat) (s : DecState),
    s.low ≤ s.high → s.high ≤ 65535 → 65536 < (s.high - s.low + 1) * 2 ^ fuel →
    ∃ r, decode_renorm fuel s = some r ∧ Renormalized r.low r.high := by
  intro fuel
  induction fuel with
  | zero =>
    intro s h1 h2 h3
    omega
  | succ fuel ih =>
    intro s h1 h2 h3
    rw [pow_succ'] at h3
    simp only [decode_renorm, HALF_eq, ONE_QUARTER_eq, THREE_QUARTERS_eq, usub, UINT_MOD]
    by_cases c1 : s.high < 32768
    · rw [if_pos c1]
      apply ih
      · show 2 * s.low % 4294967296 ≤ (2 * s.high + 1) % 4294967296
        omega
      · show (2 * s.high + 1) % 4294967296 ≤ 65535
        omega
      · show 65536 < ((2 * s.high + 1) % 4294967296 - 2 * s.low % 4294967296 + 1) * 2 ^ fuel
        have e : (2 * s.high + 1) % 4294967296 - 2 * s.low % 4294967296 + 1
            = (s.high - s.low + 1) * 2 := by omega
        rw [e, Nat.mul_assoc]
        exact h3
    · rw [if_neg c1]
      by_cases c2 : s.low ≥ 32768
      · rw [if_pos c2]
        apply ih
        · show 2 * ((s.low + 4294967296 - 32768) % 4294967296) % 4294967296
            ≤ (2 * ((s.high + 4294967296 - 32768) % 4294967296) + 1) % 4294967296
          omega
        · show (2 * ((s.high + 4294967296 - 32768) % 4294967296) + 1) % 4294967296 ≤ 65535
          omega
        · show 65536 < ((2 * ((s.high + 4294967296 - 32768) % 4294967296) + 1) % 4294967296
            - 2 * ((s.low + 4294967296 - 32768) % 4294967296) % 4294967296 + 1) * 2 ^ fuel
          have e : (2 * ((s.high + 4294967296 - 32768) % 4294967296) + 1) % 4294967296
            - 2 * ((s.low + 4294967296 - 32768) % 4294967296) % 4294967296 + 1
              = (s.high - s.low + 1) * 2 := by omega
          rw [e, Nat.mul_assoc]
          exact h3
      · rw [if_neg c2]
        by_cases c3 : s.low ≥ 16384 ∧ s.high < 49152
        · rw [if_pos c3]
          apply ih
          · show 2 * ((s.low + 4294967296 - 16384) % 4294967296) % 4294967296
              ≤ (2 * ((s.high + 4294967296 - 16384) % 4294967296) + 1) % 4294967296
            omega
          · show (2 * ((s.high + 4294967296 - 16384) % 4294967296) + 1) % 4294967296 ≤ 65535
            omega
          · show 65536 < ((2 * ((s.high + 4294967296 - 16384) % 4294967296) + 1) % 4294967296
              - 2 * ((s.low + 4294967296 - 16384) % 4294967296) % 4294967296 + 1) * 2 ^ fuel
            have e : (2 * ((s.high + 4294967296 - 16384) % 4294967296) + 1) % 4294967296
              - 2 * ((s.low + 4294967296 - 16384) % 4294967296) % 4294967296 + 1
                = (s.high - s.low + 1) * 2 := by omega
            rw [e, Nat.mul_assoc]
            exact h3
        · rw [if_neg c3]
          refine ⟨s, rfl, ?_⟩
          rw [renormalized_iff]
          omega


theorem fuel_enough (low high fuel : Nat) (hf : 17 ≤ fuel) :
    65536 < (high - low + 1) * 2 ^ fuel := by
  have h1 : 2 ^ 17 ≤ 2 ^ fuel := Nat.pow_le_pow_right (by decide) hf
  have h2 : 1 * 2 ^ fuel ≤ (high - low + 1) * 2 ^ fuel :=
    Nat.mul_le_mul_right _ (by omega)
  have h3 : (2 : Nat) ^ 17 = 131072 := by norm_num
  omega

/-- Narrowing a renormalized interval with the cumulative range of a symbol
of a model satisfying the invariant yields a non-empty sub-interval. -/
theorem narrow_bounds (m : Model) (hm : ModelInv m) (symbol low high : Nat)
    (hs : symbol ≤ EOF_SYMBOL) (hr : Renormalized low high) :
    low ≤ narrow_low m low (range_of low high) symbol ∧
    narrow_low m low (range_of low high) symbol
      ≤ narrow_high m low (range_of low high) symbol ∧
    narrow_high m low (range_of low high) symbol ≤ high := by
  rw [renormalized_iff] at hr
  have hs2 : symbol ≤ 256 := hs
  have hd := hm.cum_desc symbol (by simp only [NO_OF_SYMBOLS, NO_OF_CHARS]; omega)
  have hle := cum_freq_le_of_le m hm 0 symbol (Nat.zero_le _)
    (by simp only [NO_OF_SYMBOLS, NO_OF_CHARS]; omega)
  have hT1 : 257 ≤ rd m.cum_freq 0 := hm.total_ge
  have hT2 : rd m.cum_freq 0 ≤ 16383 := hm.total_le
  have hrange : range_of low high = high - low + 1 := by
    unfold range_of usub
    simp only [UINT_MOD]
    omega
  rw [hrange]
  unfold narrow_low narrow_high
  simp only [UINT_MOD]
  generalize hT : rd m.cum_freq 0 = T at *
  generalize ha : rd m.cum_freq (symbol + 1) = a at *
  generalize hb : rd m.cum_freq symbol = b at *
  have hTpos : 0 < T := by omega
  have hX : (high - low + 1) * b / T ≤ high - low + 1 := by
    calc (high - low + 1) * b / T ≤ (high - low + 1) * T / T :=
          Nat.div_le_div_right (Nat.mul_le_mul_left _ hle)
      _ = high - low + 1 := Nat.mul_div_cancel _ hTpos
  have hY : (high - low + 1) * a / T + 1 ≤ (high - low + 1) * b / T := by
    calc (high - low + 1) * a / T + 1 = ((high - low + 1) * a + T) / T :=
          (Nat.add_div_right _ hTpos).symm
      _ ≤ (high - low + 1) * b / T := by
          apply Nat.div_le_div_right
          calc (high - low + 1) * a + T ≤ (high - low + 1) * a + (high - low + 1) :=
                Nat.add_le_add_left (by omega) _
            _ = (high - low + 1) * (a + 1) := by ring
            _ ≤ (high - low + 1) * b := Nat.mul_le_mul_left _ hd
  generalize (high - low + 1) * b / T = X at *
  generalize (high - low + 1) * a / T = Y at *
  omega

theorem renormalized_start : Renormalized 0 MAX_VALUE := by
  rw [renormalized_iff, MAX_VALUE_eq]
  omega

theorem encode_symbol_post (fuel : Nat) (hf : 17 ≤ fuel) (m : Model) (hm : ModelInv m)
    (symbol : Nat) (hs : symbol ≤ EOF_SYMBOL) (s : EncState)
    (hr : Renormalized s.low s.high) :
    ∃ r, encode_symbol fuel symbol m s = some r ∧ Renormalized r.low r.high := by
  obtain ⟨_, b2, b3⟩ := narrow_bounds m hm symbol s.low s.high hs hr
  rw [renormalized_iff] at hr
  unfold encode_symbol
  exact encode_renorm_post fuel _ b2 (by show narrow_high _ _ _ _ ≤ 65535; omega)
    (fuel_enough _ _ fuel hf)

theorem decode_symbol_post (fuel : Nat) (hf : 17 ≤ fuel) (m : Model) (hm : ModelInv m)
    (symbol : Nat) (hs : symbol ≤ EOF_SYMBOL) (s : DecState)
    (hr : Renormalized s.low s.high) :
    ∃ r, decode_symbol fuel symbol m s = some r ∧ Renormalized r.low r.high := by
  obtain ⟨_, b2, b3⟩ := narrow_bounds m hm symbol s.low s.high hs hr
  rw [renormalized_iff] at hr
  unfold decode_symbol
  exact decode_renorm_post fuel _ b2 (by show narrow_high _ _ _ _ ≤ 65535; omega)
    (fuel_enough _ _ fuel hf)

end ArithCoding

/-! ## The bit channel -/

namespace ArithCoding

theorem bit_of_shift (buf bit j : Nat) (hj : j < 7) :
    bit_of (if bit ≠ 0 then buf >>> 1 ||| 0x80 else buf >>> 1) j = bit_of buf (j + 1) := by
  unfold bit_of
  have h128 : Nat.testBit 128 j = false := by
    have : (128 : Nat) = 2 ^ 7 := by norm_num
    rw [this, Nat.testBit_two_pow]
    simp
    omega
  have e : j + 1 = 1 + j := by omega
  split_ifs
  · rw [Nat.testBit_or, Nat.testBit_shiftRight, h128, e]; simp
  · rw [Nat.testBit_shiftRight, e]

theorem bit_of_top (buf bit : Nat) (hb : buf < 256) (hbit : bit ≤ 1) :
    bit_of (if bit ≠ 0 then buf >>> 1 ||| 0x80 else buf >>> 1) 7 = bit := by
  unfold bit_of
  have h8 : Nat.testBit buf 8 = false :=
    Nat.testBit_lt_two_pow (by norm_num; exact hb)
  split_ifs with h
  · rw [Nat.testBit_or, Nat.testBit_shiftRight]
    have : Nat.testBit 128 7 = true := by decide
    simp [this]
    omega
  · rw [Nat.testBit_shiftRight]
    simp [h8]
    omega

theorem buffer_step_lt (buf bit : Nat) (hb : buf < 256) :
    (if bit ≠ 0 then buf >>> 1 ||| 0x80 else buf >>> 1) < 256 := by
  have h1 : buf >>> 1 < 2 ^ 8 := by
    rw [Nat.shiftRight_eq_div_pow]; norm_num; omega
  split_ifs
  · exact Nat.or_lt_two_pow h1 (by norm_num)
  · simpa using h1

theorem byte_bits_mod (x : Nat) : byte_bits (x % 256) = byte_bits x := by
  unfold byte_bits
  apply List.map_congr_left
  intro i hi
  rw [List.mem_range] at hi
  unfold bit_of
  have : (256 : Nat) = 2 ^ 8 := by norm_num
  rw [this, Nat.testBit_mod_two_pow]
  simp [hi]

theorem output_bit_written (bit : Nat) (hbit : bit ≤ 1) (g : BitState) (f : List Nat)
    (hg : ChannelOK g) :
    bits_written (output_bit bit g f).1 (output_bit bit g f).2 = bits_written g f ++ [bit] ∧
    ChannelOK (output_bit bit g f).1 ∧
    (output_bit bit g f).1.e3_counter = g.e3_counter := by
  obtain ⟨h1, h2, h3⟩ := hg
  obtain ⟨n, hn⟩ := Int.eq_ofNat_of_zero_le (by omega : 0 ≤ g.bits_to_go - 1)
  have hn7 : n ≤ 7 := by omega
  have hbtg : g.bits_to_go = (n : Int) + 1 := by omega
  have hlt := buffer_step_lt g.buffer bit h3
  have key : (List.range (8 - n)).map
        (fun i => bit_of (if bit ≠ 0 then g.buffer >>> 1 ||| 0x80 else g.buffer >>> 1) (n + i))
      = (List.range (7 - n)).map (fun i => bit_of g.buffer (n + 1 + i)) ++ [bit] := by
    have e8 : 8 - n = (7 - n) + 1 := by omega
    rw [e8, List.range_succ, List.map_append, List.map_singleton]
    have e7 : n + (7 - n) = 7 := by omega
    rw [e7, bit_of_top _ _ h3 hbit]
    congr 1
    apply List.map_congr_left
    intro i hi
    rw [List.mem_range] at hi
    rw [bit_of_shift _ _ _ (by omega)]
    congr 1
    omega
  unfold output_bit
  by_cases hz : g.bits_to_go - 1 = 0
  · have hn0 : n = 0 := by omega
    subst hn0
    simp only [hz, if_true]
    refine ⟨?_, ⟨by norm_num, by norm_num, hlt⟩, trivial⟩
    unfold bits_written pending_bits putc
    simp only [List.flatMap_append, List.flatMap_singleton, List.flatMap_nil, List.append_nil,
      byte_bits_mod]
    have e1 : (8 - g.bits_to_go).toNat = 7 := by omega
    have e2 : g.bits_to_go.toNat = 1 := by omega
    have e3 : ((8 : Int) - 8).toNat = 0 := by norm_num
    rw [e1, e2, e3, List.range_zero, List.map_nil, List.append_nil, List.append_assoc]
    congr 1
  · simp only [hz, if_false]
    refine ⟨?_, ⟨by show 1 ≤ g.bits_to_go - 1; omega, by show g.bits_to_go - 1 ≤ 8; omega, hlt⟩,
      trivial⟩
    unfold bits_written pending_bits
    rw [List.append_assoc]
    congr 1
    have e1 : (8 - (g.bits_to_go - 1)).toNat = 8 - n := by omega
    have e2 : (g.bits_to_go - 1).toNat = n := by omega
    have e3 : (8 - g.bits_to_go).toNat = 7 - n := by omega
    have e4 : g.bits_to_go.toNat = n + 1 := by omega
    show List.map (fun i => bit_of (if bit ≠ 0 then g.buffer >>> 1 ||| 0x80 else g.buffer >>> 1)
        ((g.bits_to_go - 1).toNat + i)) (List.range (8 - (g.bits_to_go - 1)).toNat) = _
    rw [e1, e2, e3, e4]
    exact key

theorem output_bit_e3 (bit k : Nat) (g : BitState) (f : List Nat) :
    output_bit bit { g with e3_counter := k } f
      = ({ (output_bit bit g f).1 with e3_counter := k }, (output_bit bit g f).2) := by
  unfold output_bit
  by_cases hz : g.bits_to_go - 1 = 0
  · simp only [hz, if_true]
  · simp only [hz, if_false]

theorem write_bits_e3 (bs : List Nat) : ∀ (k : Nat) (g : BitState) (f : List Nat),
    write_bits bs { g with e3_counter := k } f
      = ({ (write_bits bs g f).1 with e3_counter := k }, (write_bits bs g f).2) := by
  induction bs with
  | nil => intro k g f; rfl
  | cons b bs ih =>
    intro k g f
    simp only [write_bits]
    rw [output_bit_e3]
    exact ih k _ _

theorem follow_loop_eq (bit : Nat) : ∀ (n : Nat) (g : BitState) (f : List Nat),
    follow_loop bit n g f
      = ({ (write_bits (List.replicate n (lnot bit)) g f).1 with e3_counter := 0 },
          (write_bits (List.replicate n (lnot bit)) g f).2) := by
  intro n
  induction n with
  | zero => intro g f; rfl
  | succ n ih =>
    intro g f
    simp only [follow_loop, List.replicate_succ, write_bits]
    rw [ih, write_bits_e3]

theorem output_bit_keeps_e3 (bit : Nat) (g : BitState) (f : List Nat) :
    (output_bit bit g f).1.e3_counter = g.e3_counter := by
  unfold output_bit
  by_cases hz : g.bits_to_go - 1 = 0
  · simp only [hz, if_true]
  · simp only [hz, if_false]

theorem bits_plus_follow_eq (bit : Nat) (g : BitState) (f : List Nat) :
    bits_plus_follow bit g f
      = ({ (write_bits (bit :: List.replicate g.e3_counter (lnot bit)) g f).1
            with e3_counter := 0 },
          (write_bits (bit :: List.replicate g.e3_counter (lnot bit)) g f).2) := by
  unfold bits_plus_follow
  simp only [write_bits]
  rw [follow_loop_eq, output_bit_keeps_e3]

theorem write_bits_written (bs : List Nat) : ∀ (g : BitState) (f : List Nat),
    (∀ b ∈ bs, b ≤ 1) → ChannelOK g →
    bits_written (write_bits bs g f).1 (write_bits bs g f).2 = bits_written g f ++ bs ∧
    ChannelOK (write_bits bs g f).1 := by
  induction bs with
  | nil => intro g f _ hg; exact ⟨by simp [write_bits], hg⟩
  | cons b bs ih =>
    intro g f hb hg
    obtain ⟨a1, a2, _⟩ := output_bit_written b (hb b (List.mem_cons_self _ _)) g f hg
    obtain ⟨c1, c2⟩ := ih (output_bit b g f).1 (output_bit b g f).2
      (fun x hx => hb x (List.mem_cons_of_mem _ hx)) a2
    simp only [write_bits]
    refine ⟨?_, c2⟩
    rw [c1, a1, List.append_assoc, List.singleton_append]

theorem and_one_eq_bit_of (x : Nat) : x &&& 1 = bit_of x 0 := by
  unfold bit_of
  rw [Nat.toNat_testBit, Nat.and_one_is_mod]
  simp

theorem bit_of_shiftRight_one (x i : Nat) : bit_of (x >>> 1) i = bit_of x (i + 1) := by
  unfold bit_of
  rw [Nat.testBit_shiftRight, Nat.add_comm]

/-- Once `bits_to_go` is not `0`, `input_bit` only shifts `buffer`: the file
is not read and the bits returned are the bits of `buffer`. -/
theorem read_bits_of_loaded (n : Nat) : ∀ (g : BitState) (f : List Nat),
    g.bits_to_go ≠ 0 → read_bits n g f = (List.range n).map (bit_of g.buffer) := by
  induction n with
  | zero => intro g f _; rfl
  | succ n ih =>
    intro g f hg
    have h1 : input_bit g f = (g.buffer &&& 1, { g with buffer := g.buffer >>> 1 }, f) := by
      unfold input_bit
      simp [hg]
    simp only [read_bits, h1]
    rw [ih { g with buffer := g.buffer >>> 1 } f hg, List.range_succ_eq_map, List.map_cons,
      List.map_map, and_one_eq_bit_of]
    congr 1
    apply List.map_congr_left
    intro i _
    exact bit_of_shiftRight_one _ _

/-- Started with `bits_to_go = 0` on a non-empty file, `input_bit` hands out
the bits of the first byte and nothing else, however many bytes follow. -/
theorem read_bits_first_byte (n : Nat) (g : BitState) (hg : g.bits_to_go = 0)
    (c : Nat) (rest : List Nat) :
    read_bits n g (c :: rest) = (List.range n).map (bit_of c) := by
  cases n with
  | zero => rfl
  | succ n =>
    have h1 : input_bit g (c :: rest)
        = (c &&& 1, { g with buffer := c >>> 1, bits_to_go := 8 }, rest) := by
      unfold input_bit getc
      simp [hg]
    simp only [read_bits, h1]
    rw [read_bits_of_loaded n _ rest (by simp), List.range_succ_eq_map, List.map_cons,
      List.map_map, and_one_eq_bit_of]
    congr 1
    apply List.map_congr_left
    intro i _
    exact bit_of_shiftRight_one _ _

theorem output_bit_count (bit : Nat) (g : BitState) (f : List Nat) (hg : ChannelOK g) :
    8 * (output_bit bit g f).2.length + (8 - (output_bit bit g f).1.bits_to_go).toNat
      = 8 * f.length + (8 - g.bits_to_go).toNat + 1 := by
  obtain ⟨h1, h2, _⟩ := hg
  unfold output_bit
  by_cases hz : g.bits_to_go - 1 = 0
  · simp only [hz, if_true, putc, List.length_append, List.length_singleton]
    omega
  · simp only [hz, if_false]
    omega

theorem write_bits_count (bs : List Nat) : ∀ (g : BitState) (f : List Nat),
    (∀ b ∈ bs, b ≤ 1) → ChannelOK g →
    8 * (write_bits bs g f).2.length + (8 - (write_bits bs g f).1.bits_to_go).toNat
      = 8 * f.length + (8 - g.bits_to_go).toNat + bs.length := by
  induction bs with
  | nil => intro g f _ _; rfl
  | cons b bs ih =>
    intro g f hb hg
    have a := output_bit_count b g f hg
    have a2 := (output_bit_written b (hb b (List.mem_cons_self _ _)) g f hg).2.1
    have c := ih (output_bit b g f).1 (output_bit b g f).2
      (fun x hx => hb x (List.mem_cons_of_mem _ hx)) a2
    simp only [write_bits, List.length_cons]
    omega

/-- The byte written by the flush holds the pending bits, lowest first, and
zeros above them. -/
theorem flush_byte_bits (g : BitState) (hg : ChannelOK g) :
    byte_bits (g.buffer >>> g.bits_to_go.toNat)
      = pending_bits g ++ List.replicate g.bits_to_go.toNat 0 := by
  obtain ⟨h1, h2, h3⟩ := hg
  obtain ⟨t, ht⟩ := Int.eq_ofNat_of_zero_le (by omega : 0 ≤ g.bits_to_go)
  have e1 : g.bits_to_go.toNat = t := by omega
  have e2 : (8 - g.bits_to_go).toNat = 8 - t := by omega
  have e3 : 8 = (8 - t) + t := by omega
  unfold byte_bits pending_bits
  rw [e1, e2]
  conv_lhs => rw [e3, List.range_add, List.map_append, List.map_map]
  congr 1
  · apply List.map_congr_left
    intro i _
    unfold bit_of
    rw [Nat.testBit_shiftRight]
  · rw [List.eq_replicate_iff]
    refine ⟨by simp, ?_⟩
    intro b hb
    rw [List.mem_map] at hb
    obtain ⟨i, _, rfl⟩ := hb
    simp only [Function.comp]
    unfold bit_of
    rw [Nat.testBit_shiftRight]
    have : Nat.testBit g.buffer (t + (8 - t + i)) = false :=
      Nat.testBit_lt_two_pow (Nat.lt_of_lt_of_le h3
        (by
          have : (256 : Nat) = 2 ^ 8 := by norm_num
          rw [this]
          exact Nat.pow_le_pow_right (by decide) (by omega)))
    rw [this]
    rfl

/-- The output side of the bit channel: from a fresh channel (`bits_to_go = 8`,
one-byte buffer) `n` calls of `output_bit` and the flush write
`floor(n/8) + 1` bytes, whose bits, lowest first, are the bits written
followed by zeros. -/
theorem write_bits_flush_spec (bs : List Nat) (hb : ∀ b ∈ bs, b ≤ 1) (g : BitState)
    (h8 : g.bits_to_go = 8) (hbuf : g.buffer < 256) :
    (flush_buffer (write_bits bs g []).1 (write_bits bs g []).2).length = bs.length / 8 + 1 ∧
    (flush_buffer (write_bits bs g []).1 (write_bits bs g []).2).flatMap byte_bits
      = bs ++ List.replicate (8 - bs.length % 8) 0 := by
  have hg : ChannelOK g := ⟨by omega, by omega, hbuf⟩
  obtain ⟨w1, w2⟩ := write_bits_written bs g [] hb hg
  have cnt := write_bits_count bs g [] hb hg
  obtain ⟨p1, p2, _⟩ := w2
  have hp0 : pending_bits g = [] := by
    unfold pending_bits
    rw [h8]
    rfl
  simp only [List.length_nil, h8] at cnt
  unfold bits_written at w1
  rw [hp0] at w1
  simp only [List.flatMap_nil, List.append_nil, List.nil_append] at w1
  unfold flush_buffer putc
  constructor
  · rw [List.length_append, List.length_singleton]
    omega
  · rw [List.flatMap_append, List.flatMap_singleton,
      byte_bits_mod, flush_byte_bits _ ⟨p1, p2, by assumption⟩, ← List.append_assoc, w1]
    congr 2
    omega

end ArithCoding

/-! ## Fuel -/

namespace ArithCoding

theorem encode_renorm_mono : ∀ (fuel : Nat) (s r : EncState),
    encode_renorm fuel s = some r → ∀ fuel2, fuel ≤ fuel2 → encode_renorm fuel2 s = some r := by
  intro fuel
  induction fuel with
  | zero => intro s r h; simp [encode_renorm] at h
  | succ fuel ih =>
    intro s r h fuel2 hle
    obtain ⟨k, rfl⟩ : ∃ k, fuel2 = k + 1 := ⟨fuel2 - 1, by omega⟩
    have hk : fuel ≤ k := by omega
    simp only [encode_renorm] at h ⊢
    split_ifs at h ⊢ with c1 c2 c3
    · exact ih _ _ h k hk
    · exact ih _ _ h k hk
    · exact ih _ _ h k hk
    · exact h

theorem decode_renorm_mono : ∀ (fuel : Nat) (s r : DecState),
    decode_renorm fuel s = some r → ∀ fuel2, fuel ≤ fuel2 → decode_renorm fuel2 s = some r := by
  intro fuel
  induction fuel with
  | zero => intro s r h; simp [decode_renorm] at h
  | succ fuel ih =>
    intro s r h fuel2 hle
    obtain ⟨k, rfl⟩ : ∃ k, fuel2 = k + 1 := ⟨fuel2 - 1, by omega⟩
    have hk : fuel ≤ k := by omega
    simp only [decode_renorm] at h ⊢
    split_ifs at h ⊢ with c1 c2 c3
    · exact ih _ _ h k hk
    · exact ih _ _ h k hk
    · exact ih _ _ h k hk
    · exact h

theorem encode_symbol_mono (fuel fuel2 : Nat) (hle : fuel ≤ fuel2) (symbol : Nat) (m : Model)
    (s r : EncState) (h : encode_symbol fuel symbol m s = some r) :
    encode_symbol fuel2 symbol m s = some r :=
  encode_renorm_mono fuel _ r h fuel2 hle

theorem decode_symbol_mono (fuel fuel2 : Nat) (hle : fuel ≤ fuel2) (symbol : Nat) (m : Model)
    (s r : DecState) (h : decode_symbol fuel symbol m s = some r) :
    decode_symbol fuel2 symbol m s = some r :=
  decode_renorm_mono fuel _ r h fuel2 hle

theorem encode_loop_mono (fuel fuel2 : Nat) (hle : fuel ≤ fuel2) :
    ∀ (input : List Nat) (m : Model) (s : EncState) (r : List Nat),
      encode_loop fuel input m s = some r → encode_loop fuel2 input m s = some r := by
  intro input
  induction input with
  | nil =>
    intro m s r h
    simp only [encode_loop, Option.map_eq_some'] at h ⊢
    obtain ⟨a, h1, h2⟩ := h
    exact ⟨a, encode_symbol_mono fuel fuel2 hle _ m s a h1, h2⟩
  | cons c cs ih =>
    intro m s r h
    simp only [encode_loop] at h ⊢
    cases h1 : encode_symbol fuel c m s with
    | none => rw [h1] at h; simp at h
    | some s1 =>
      rw [h1] at h
      rw [encode_symbol_mono fuel fuel2 hle c m s s1 h1]
      simp only at h ⊢
      split_ifs at h ⊢ with hc
      · exact h
      · exact ih _ _ _ h

theorem encode_mono (fuel fuel2 : Nat) (hle : fuel ≤ fuel2) (input r : List Nat)
    (h : encode fuel input = some r) : encode fuel2 input = some r :=
  encode_loop_mono fuel fuel2 hle input _ _ r h

theorem decode_loop_mono (rfuel rfuel2 : Nat) (hr : rfuel ≤ rfuel2) :
    ∀ (fuel : Nat) (m : Model) (s : DecState) (out r : List Nat),
      decode_loop rfuel fuel m s out = some r →
      ∀ fuel2, fuel ≤ fuel2 → decode_loop rfuel2 fuel2 m s out = some r := by
  intro fuel
  induction fuel with
  | zero => intro m s out r h; simp [decode_loop] at h
  | succ fuel ih =>
    intro m s out r h fuel2 hle
    obtain ⟨k, rfl⟩ : ∃ k, fuel2 = k + 1 := ⟨fuel2 - 1, by omega⟩
    have hk : fuel ≤ k := by omega
    simp only [decode_loop] at h ⊢
    split_ifs at h ⊢ with hc
    · exact h
    · cases h1 : decode_symbol rfuel
          (locate m (count_of m s.low s.value (range_of s.low s.high))) m s with
      | none => rw [h1] at h; simp at h
      | some s1 =>
        rw [h1] at h
        rw [decode_symbol_mono rfuel rfuel2 hr _ m s s1 h1]
        exact ih _ _ _ _ h k hk

theorem decode_mono (fuel fuel2 : Nat) (hle : fuel ≤ fuel2) (input r : List Nat)
    (h : decode fuel input = some r) : decode fuel2 input = some r :=
  decode_loop_mono fuel fuel2 hle fuel _ _ _ r h fuel2 hle

end ArithCoding

/-! ## Concrete runs -/

namespace ArithCoding

set_option maxRecDepth 1000000 in
theorem encode_empty_run : encode 9 [] = some [0, 2] := by decide!

set_option maxRecDepth 1000000 in
theorem decode_empty_run : decode 1 [0, 2] = some [] := by decide!

set_option maxRecDepth 1000000 in
theorem encode_byte_ff_run : encode 20 [0xFF] = some [0, 0xFF, 2] := by decide!

set_option maxRecDepth 1000000 in
theorem decode_byte_ff_run : decode 1 [0, 0xFF, 2] = some [] := by decide!

set_option maxRecDepth 1000000 in
theorem encode_aaab_run :
    encode 20 [0x41, 0x41, 0x41, 0x42] = some [125, 255, 252, 54, 68] := by decide!

set_option maxRecDepth 1000000 in
theorem decode_aaab_first_symbol :
    locate initialize_model (count_of initialize_model 0
      (fill_value CODE_VALUE_BITS 0 { buffer := 0, bits_to_go := 0, e3_counter := 0 }
        [125, 255, 252, 54, 68]).1 (range_of 0 MAX_VALUE)) = 0x42 := by decide!

/-- Whatever `decode` has written stays at the front of its output. -/
theorem decode_loop_prefix (rfuel : Nat) :
    ∀ (fuel : Nat) (m : Model) (s : DecState) (out r : List Nat),
      decode_loop rfuel fuel m s out = some r → ∃ t, r = out ++ t := by
  intro fuel
  induction fuel with
  | zero => intro m s out r h; simp [decode_loop] at h
  | succ fuel ih =>
    intro m s out r h
    simp only [decode_loop] at h
    split_ifs at h with hc
    · exact ⟨[], by simpa using (Option.some.inj h).symm⟩
    · cases h1 : decode_symbol rfuel
          (locate m (count_of m s.low s.value (range_of s.low s.high))) m s with
      | none => rw [h1] at h; simp at h
      | some s1 =>
        rw [h1] at h
        obtain ⟨t, ht⟩ := ih _ _ _ _ h
        refine ⟨(locate m (count_of m s.low s.value (range_of s.low s.high)) % 256) :: t, ?_⟩
        rw [ht, putc, List.append_assoc, List.singleton_append]

/-- The first symbol found by `decode`, when it is not the end marker, is
the first byte of its output. -/
theorem decode_loop_first (rfuel fuel : Nat) (m : Model) (s : DecState) (out r : List Nat)
    (c : Nat) (hsym : locate m (count_of m s.low s.value (range_of s.low s.high)) = c)
    (hc : ¬ c = EOF_SYMBOL) (h : decode_loop rfuel fuel m s out = some r) :
    ∃ t, r = out ++ (c % 256) :: t := by
  cases fuel with
  | zero => simp [decode_loop] at h
  | succ k =>
    simp only [decode_loop] at h
    rw [hsym] at h
    rw [if_neg hc] at h
    cases h1 : decode_symbol rfuel c m s with
    | none => rw [h1] at h; simp at h
    | some s1 =>
      rw [h1] at h
      obtain ⟨t, ht⟩ := decode_loop_prefix _ _ _ _ _ _ h
      exact ⟨t, by rw [ht, putc, List.append_assoc, List.singleton_append]⟩

theorem decode_aaab_starts_with_b (fuel : Nat) (out : List Nat)
    (h : decode fuel [125, 255, 252, 54, 68] = some out) : ∃ t, out = 0x42 :: t := by
  unfold decode decode_from at h
  obtain ⟨t, ht⟩ := decode_loop_first fuel fuel initialize_model
    { low := 0, high := MAX_VALUE,
      value := (fill_value CODE_VALUE_BITS 0
        { buffer := 0, bits_to_go := 0, e3_counter := 0 } [125, 255, 252, 54, 68]).1,
      g := (fill_value CODE_VALUE_BITS 0
        { buffer := 0, bits_to_go := 0, e3_counter := 0 } [125, 255, 252, 54, 68]).2.1,
      inp := (fill_value CODE_VALUE_BITS 0
        { buffer := 0, bits_to_go := 0, e3_counter := 0 } [125, 255, 252, 54, 68]).2.2 }
    [] out 0x42 decode_aaab_first_symbol (by decide) h
  exact ⟨t, ht⟩

theorem decode_none_or_eq (fuel fuel0 : Nat) (input r : List Nat)
    (h0 : decode fuel0 input = some r) (out : List Nat) (h : decode fuel input = some out) :
    out = r := by
  have a := decode_mono fuel (max fuel fuel0) (Nat.le_max_left _ _) input out h
  have b := decode_mono fuel0 (max fuel fuel0) (Nat.le_max_right _ _) input r h0
  rw [a] at b
  exact Option.some.inj b

end ArithCoding

/-! ## Runs of `update_model` -/

namespace ArithCoding

/-- A call of `update_model` below the ceiling: `freq` is left as it is and
`cum_freq[0..symbol]` is incremented. -/
theorem update_model_of_lt (m : Model) (hm : ModelInv m) (x : Nat) (hx : x ≤ EOF_SYMBOL)
    (hlt : rd m.cum_freq 0 < MAX_FREQ) :
    (update_model x m).freq = m.freq ∧
    ∀ j, rd (update_model x m).cum_freq j
      = if j ≤ x then rd m.cum_freq j + 1 else rd m.cum_freq j := by
  have hu : update_model x m = incr_loop x m := by
    unfold update_model
    have : ¬ rd m.cum_freq 0 ≥ MAX_FREQ := by omega
    simp only [this, if_false]
  have hx2 : x ≤ 256 := hx
  obtain ⟨h1, _, h3⟩ := incr_loop_spec x m
    (by rw [hm.len_cum]; simp only [NO_OF_SYMBOLS, NO_OF_CHARS]; omega)
  rw [hu]
  exact ⟨h1, h3⟩

/-- A call of `update_model` at the ceiling: `cum_freq` is rebuilt from the
unchanged `freq`, which gives `257 - j`, before `cum_freq[0..symbol]` is
incremented. -/
theorem update_model_of_ge (m : Model) (hm : ModelInv m) (x : Nat) (hx : x ≤ EOF_SYMBOL)
    (hge : rd m.cum_freq 0 ≥ MAX_FREQ) (j : Nat) (hj : j ≤ NO_OF_SYMBOLS) :
    rd (update_model x m).cum_freq j = (NO_OF_SYMBOLS - j) + if j ≤ x then 1 else 0 := by
  have hu : update_model x m = incr_loop x (rescale_loop NO_OF_SYMBOLS m 0).1 := by
    unfold update_model
    simp only [hge, if_true]
  obtain ⟨_, a2, _, a4⟩ := rescale_loop_spec NO_OF_SYMBOLS m 0
    (by rw [hm.len_cum]; omega) (by rw [hm.len_freq]; omega) hm.freq_zero hm.freq_one
  have hx2 : x ≤ 256 := hx
  obtain ⟨_, _, h3⟩ := incr_loop_spec x (rescale_loop NO_OF_SYMBOLS m 0).1
    (by rw [a2, hm.len_cum]; simp only [NO_OF_SYMBOLS, NO_OF_CHARS]; omega)
  rw [hu, h3, a4]
  simp only [hj, if_true, Nat.zero_add]
  split_ifs <;> omega

theorem reachable_run_updates (ss : List Nat) : ∀ (m : Model), Reachable m →
    (∀ s ∈ ss, s ≤ EOF_SYMBOL) → Reachable (run_updates ss m) := by
  induction ss with
  | nil => intro m hm _; exact hm
  | cons s ss ih =>
    intro m hm hs
    exact ih _ (Reachable.step s hm (hs s (List.mem_cons_self _ _)))
      (fun t ht => hs t (List.mem_cons_of_mem _ ht))

/-- A run of the symbol `0` below the ceiling raises `cum_freq[0]` only. -/
theorem run_updates_zero (n : Nat) : ∀ (m : Model), ModelInv m →
    rd m.cum_freq 0 + n ≤ MAX_FREQ → ∀ j,
    rd (run_updates (List.replicate n 0) m).cum_freq j
      = if j = 0 then rd m.cum_freq 0 + n else rd m.cum_freq j := by
  induction n with
  | zero =>
    intro m _ _ j
    by_cases hj : j = 0
    · simp [run_updates, hj]
    · simp [run_updates, hj]
  | succ n ih =>
    intro m hm hlen j
    have h1 := (update_model_of_lt m hm 0 (Nat.zero_le _) (by omega)).2
    have h2 := ih (update_model 0 m) (modelInv_update_model m 0 (Nat.zero_le _) hm)
      (by rw [h1 0]; simp only [Nat.le_refl, if_true]; omega) j
    simp only [List.replicate_succ, run_updates]
    rw [h2, h1 0, h1 j]
    by_cases hj : j = 0
    · simp only [hj, Nat.le_refl, if_true]
      omega
    · have : ¬ j ≤ 0 := by omega
      simp only [hj, this, if_false]

end ArithCoding

/-! ## States of the coder loops -/

namespace ArithCoding

theorem coderReach_inv (m : Model) (low high : Nat) (h : CoderReach m low high) :
    Reachable m ∧ Renormalized low high := by
  induction h with
  | start => exact ⟨Reachable.init, renormalized_start⟩
  | enc_step fuel symbol g out r _ hs he ih =>
    obtain ⟨hm, hr⟩ := ih
    refine ⟨Reachable.step symbol hm hs, ?_⟩
    obtain ⟨r2, e2, p2⟩ := encode_symbol_post (max fuel 17) (Nat.le_max_right _ _) _
      (modelInv_of_reachable _ hm) symbol hs
      { low := _, high := _, g := g, out := out } hr
    have e3 := encode_symbol_mono fuel (max fuel 17) (Nat.le_max_left _ _) _ _ _ _ he
    rw [e3] at e2
    rw [Option.some.inj e2]
    exact p2
  | dec_step fuel symbol value g inp r _ hs he ih =>
    obtain ⟨hm, hr⟩ := ih
    refine ⟨Reachable.step symbol hm hs, ?_⟩
    obtain ⟨r2, e2, p2⟩ := decode_symbol_post (max fuel 17) (Nat.le_max_right _ _) _
      (modelInv_of_reachable _ hm) symbol hs
      { low := _, high := _, value := value, g := g, inp := inp } hr
    have e3 := decode_symbol_mono fuel (max fuel 17) (Nat.le_max_left _ _) _ _ _ _ he
    rw [e3] at e2
    rw [Option.some.inj e2]
    exact p2

theorem range_of_eq (low high : Nat) (h1 : low ≤ high) (h2 : high ≤ MAX_VALUE) :
    range_of low high = high - low + 1 := by
  rw [MAX_VALUE_eq] at h2
  unfold range_of usub
  simp only [UINT_MOD]
  omega

theorem usub_eq (a b : Nat) (h1 : b ≤ a) (h2 : a < UINT_MOD) : usub a b = a - b := by
  unfold usub
  simp only [UINT_MOD] at *
  omega

/-- The products formed by `encode` and `decode` stay below `2 ^ 30`. -/
theorem products_bounded (m : Model) (hm : ModelInv m) (low high : Nat) (h1 : low ≤ high)
    (h2 : high ≤ MAX_VALUE) :
    1 ≤ range_of low high ∧ range_of low high ≤ 2 ^ 16 ∧
    (∀ s, s ≤ NO_OF_SYMBOLS → range_of low high * rd m.cum_freq s < 2 ^ 30) ∧
    (∀ value, low ≤ value → value ≤ high →
      (usub value low + 1) * rd m.cum_freq 0 < 2 ^ 30) := by
  have hR := range_of_eq low high h1 h2
  have h3 : high ≤ 65535 := by rw [MAX_VALUE_eq] at h2; exact h2
  have hT : rd m.cum_freq 0 ≤ 16383 := hm.total_le
  have key : ∀ a c, a ≤ 65536 → c ≤ 16383 → a * c < 2 ^ 30 := by
    intro a c ha hc
    calc a * c ≤ 65536 * 16383 := Nat.mul_le_mul ha hc
      _ < 2 ^ 30 := by norm_num
  refine ⟨by rw [hR]; omega, by rw [hR]; norm_num; omega, ?_, ?_⟩
  · intro s hs
    have := cum_freq_le_of_le m hm 0 s (Nat.zero_le _) hs
    exact key _ _ (by rw [hR]; omega) (by omega)
  · intro value hv1 hv2
    rw [usub_eq value low hv1 (by simp only [UINT_MOD]; omega)]
    exact key _ _ (by omega) hT

/-- The count computed by the decoder is at least `a` exactly when the offset
`d` reaches the lower end `R * a / T` of the sub-interval. -/
theorem le_count_iff (R T a d : Nat) (hR : 0 < R) (hT : 0 < T) :
    a ≤ ((d + 1) * T - 1) / R ↔ R * a / T ≤ d := by
  have hpos : 1 ≤ (d + 1) * T := Nat.mul_pos (Nat.succ_pos d) hT
  have e1 : R * a / T ≤ d ↔ R * a / T < d + 1 := by omega
  rw [Nat.le_div_iff_mul_le hR, e1, Nat.div_lt_iff_lt_mul hT, Nat.mul_comm R a]
  omega

/-- The count computed by the decoder is below `b` exactly when the offset
`d` is below the upper end `R * b / T` of the sub-interval. -/
theorem count_lt_iff (R T b d : Nat) (hR : 0 < R) (hT : 0 < T) :
    ((d + 1) * T - 1) / R < b ↔ d + 1 ≤ R * b / T := by
  have hpos : 1 ≤ (d + 1) * T := Nat.mul_pos (Nat.succ_pos d) hT
  rw [Nat.div_lt_iff_lt_mul hR, Nat.le_div_iff_mul_le hT, Nat.mul_comm R b]
  omega

/-- Narrowing an interval whose range is at least the total with the
cumulative range of a symbol: the formulas without wrap-around, and a
non-empty sub-interval. -/
theorem narrow_formulas (m : Model) (hm : ModelInv m) (symbol low high : Nat)
    (hs : symbol ≤ EOF_SYMBOL) (h1 : low ≤ high) (h2 : high ≤ MAX_VALUE)
    (h3 : rd m.cum_freq 0 ≤ range_of low high) :
    narrow_low m low (range_of low high) symbol
      = low + range_of low high * rd m.cum_freq (symbol + 1) / rd m.cum_freq 0 ∧
    narrow_high m low (range_of low high) symbol + 1
      = low + range_of low high * rd m.cum_freq symbol / rd m.cum_freq 0 ∧
    narrow_low m low (range_of low high) symbol
      ≤ narrow_high m low (range_of low high) symbol ∧
    narrow_high m low (range_of low high) symbol ≤ high := by
  have hs2 : symbol ≤ 256 := hs
  have hd := hm.cum_desc symbol (by simp only [NO_OF_SYMBOLS, NO_OF_CHARS]; omega)
  have hle := cum_freq_le_of_le m hm 0 symbol (Nat.zero_le _)
    (by simp only [NO_OF_SYMBOLS, NO_OF_CHARS]; omega)
  have hT1 : 257 ≤ rd m.cum_freq 0 := hm.total_ge
  have hrange := range_of_eq low high h1 h2
  rw [MAX_VALUE_eq] at h2
  rw [hrange] at h3 ⊢
  unfold narrow_low narrow_high
  simp only [UINT_MOD]
  generalize hT : rd m.cum_freq 0 = T at *
  generalize ha : rd m.cum_freq (symbol + 1) = a at *
  generalize hb : rd m.cum_freq symbol = b at *
  have hTpos : 0 < T := by omega
  have hX : (high - low + 1) * b / T ≤ high - low + 1 := by
    calc (high - low + 1) * b / T ≤ (high - low + 1) * T / T :=
          Nat.div_le_div_right (Nat.mul_le_mul_left _ hle)
      _ = high - low + 1 := Nat.mul_div_cancel _ hTpos
  have hY : (high - low + 1) * a / T + 1 ≤ (high - low + 1) * b / T := by
    calc (high - low + 1) * a / T + 1 = ((high - low + 1) * a + T) / T :=
          (Nat.add_div_right _ hTpos).symm
      _ ≤ (high - low + 1) * b / T := by
          apply Nat.div_le_div_right
          calc (high - low + 1) * a + T ≤ (high - low + 1) * a + (high - low + 1) :=
                Nat.add_le_add_left h3 _
            _ = (high - low + 1) * (a + 1) := by ring
            _ ≤ (high - low + 1) * b := Nat.mul_le_mul_left _ hd
  generalize (high - low + 1) * b / T = X at *
  generalize (high - low + 1) * a / T = Y at *
  omega

/-- The renormalization loop of `encode` makes `k` firing passes, `k` at most
`n` when `2 ^ (n + 1)` ranges exceed `2 ^ 16`, and then stops: `k` units of
fuel are too few, `k + 1` are enough, and the range has been doubled `k`
times. -/
theorem encode_renorm_count : ∀ (n : Nat) (s : EncState),
    s.low ≤ s.high → s.high ≤ 65535 → 65536 < (s.high - s.low + 1) * 2 ^ (n + 1) →
    ∃ k, k ≤ n ∧ encode_renorm k s = none ∧
      ∃ r, encode_renorm (k + 1) s = some r ∧
        r.high - r.low + 1 = 2 ^ k * (s.high - s.low + 1) ∧ Renormalized r.low r.high := by
  intro n
  induction n with
  | zero =>
    intro s h1 h2 h3
    refine ⟨0, Nat.le_refl _, rfl, s, ?_, by simp, ?_⟩
    · simp only [encode_renorm, HALF_eq, ONE_QUARTER_eq, THREE_QUARTERS_eq]
      have c1 : ¬ s.high < 32768 := by omega
      have c2 : ¬ s.low ≥ 32768 := by omega
      have c3 : ¬ (s.low ≥ 16384 ∧ s.high < 49152) := by omega
      rw [if_neg c1, if_neg c2, if_neg c3]
    · rw [renormalized_iff]
      omega
  | succ n ih =>
    intro s h1 h2 h3
    rw [pow_succ'] at h3
    have fire : ∀ s2 : EncState, s2.low ≤ s2.high → s2.high ≤ 65535 →
        s2.high - s2.low + 1 = (s.high - s.low + 1) * 2 →
        (∀ fuel, encode_renorm (fuel + 1) s = encode_renorm fuel s2) →
        ∃ k, k ≤ n + 1 ∧ encode_renorm k s = none ∧
          ∃ r, encode_renorm (k + 1) s = some r ∧
            r.high - r.low + 1 = 2 ^ k * (s.high - s.low + 1) ∧
            Renormalized r.low r.high := by
      intro s2 a1 a2 a3 a4
      obtain ⟨k, hk, e1, r, e2, e3, e4⟩ := ih s2 a1 a2 (by rw [a3, Nat.mul_assoc]; exact h3)
      refine ⟨k + 1, by omega, by rw [a4]; exact e1, r, by rw [a4]; exact e2, ?_, e4⟩
      rw [e3, a3, pow_succ]
      ring
    by_cases c1 : s.high < 32768
    · apply fire ⟨2 * s.low % UINT_MOD, (2 * s.high + 1) % UINT_MOD,
        (bits_plus_follow 0 s.g s.out).1, (bits_plus_follow 0 s.g s.out).2⟩
      · show 2 * s.low % 4294967296 ≤ (2 * s.high + 1) % 4294967296
        omega
      · show (2 * s.high + 1) % 4294967296 ≤ 65535
        omega
      · show (2 * s.high + 1) % 4294967296 - 2 * s.low % 4294967296 + 1 = _
        omega
      · intro fuel
        simp only [encode_renorm, HALF_eq]
        rw [if_pos c1]
    · by_cases c2 : s.low ≥ 32768
      · apply fire ⟨2 * usub s.low HALF % UINT_MOD, (2 * usub s.high HALF + 1) % UINT_MOD,
          (bits_plus_follow 1 s.g s.out).1, (bits_plus_follow 1 s.g s.out).2⟩
        · show 2 * ((s.low + 4294967296 - HALF) % 4294967296) % 4294967296
            ≤ (2 * ((s.high + 4294967296 - HALF) % 4294967296) + 1) % 4294967296
          rw [HALF_eq]
          omega
        · show (2 * ((s.high + 4294967296 - HALF) % 4294967296) + 1) % 4294967296 ≤ 65535
          rw [HALF_eq]
          omega
        · show (2 * ((s.high + 4294967296 - HALF) % 4294967296) + 1) % 4294967296
            - 2 * ((s.low + 4294967296 - HALF) % 4294967296) % 4294967296 + 1 = _
          rw [HALF_eq]
          omega
        · intro fuel
          simp only [encode_renorm, HALF_eq]
          rw [if_neg c1, if_pos c2]
      · by_cases c3 : s.low ≥ 16384 ∧ s.high < 49152
        · apply fire ⟨2 * usub s.low ONE_QUARTER % UINT_MOD,
            (2 * usub s.high ONE_QUARTER + 1) % UINT_MOD,
            { s.g with e3_counter := s.g.e3_counter + 1 }, s.out⟩
          · show 2 * ((s.low + 4294967296 - ONE_QUARTER) % 4294967296) % 4294967296
              ≤ (2 * ((s.high + 4294967296 - ONE_QUARTER) % 4294967296) + 1) % 4294967296
            rw [ONE_QUARTER_eq]
            omega
          · show (2 * ((s.high + 4294967296 - ONE_QUARTER) % 4294967296) + 1) % 4294967296
              ≤ 65535
            rw [ONE_QUARTER_eq]
            omega
          · show (2 * ((s.high + 4294967296 - ONE_QUARTER) % 4294967296) + 1) % 4294967296
              - 2 * ((s.low + 4294967296 - ONE_QUARTER) % 4294967296) % 4294967296 + 1 = _
            rw [ONE_QUARTER_eq]
            omega
          · intro fuel
            simp only [encode_renorm, HALF_eq, ONE_QUARTER_eq, THREE_QUARTERS_eq]
            rw [if_neg c1, if_neg c2, if_pos c3]
        · refine ⟨0, Nat.zero_le _, rfl, s, ?_, by simp, ?_⟩
          · simp only [encode_renorm, HALF_eq, ONE_QUARTER_eq, THREE_QUARTERS_eq]
            rw [if_neg c1, if_neg c2, if_neg c3]
          · rw [renormalized_iff]
            omega

/-- The renormalization loop of `decode` makes `k` firing passes, `k` at most
`n` when `2 ^ (n + 1)` ranges exceed `2 ^ 16`, and then stops: `k` units of
fuel are too few, `k + 1` are enough, and the range has been doubled `k`
times. -/
theorem decode_renorm_count : ∀ (n : Nat) (s : DecState),
    s.low ≤ s.high → s.high ≤ 65535 → 65536 < (s.high - s.low + 1) * 2 ^ (n + 1) →
    ∃ k, k ≤ n ∧ decode_renorm k s = none ∧
      ∃ r, decode_renorm (k + 1) s = some r ∧
        r.high - r.low + 1 = 2 ^ k * (s.high - s.low + 1) ∧ Renormalized r.low r.high := by
  intro n
  induction n with
  | zero =>
    intro s h1 h2 h3
    refine ⟨0, Nat.le_refl _, rfl, s, ?_, by simp, ?_⟩
    · simp only [decode_renorm, HALF_eq, ONE_QUARTER_eq, THREE_QUARTERS_eq]
      have c1 : ¬ s.high < 32768 := by omega
      have c2 : ¬ s.low ≥ 32768 := by omega
      have c3 : ¬ (s.low ≥ 16384 ∧ s.high < 49152) := by omega
      rw [if_neg c1, if_neg c2, if_neg c3]
    · rw [renormalized_iff]
      omega
  | succ n ih =>
    intro s h1 h2 h3
    rw [pow_succ'] at h3
    have fire : ∀ s2 : DecState, s2.low ≤ s2.high → s2.high ≤ 65535 →
        s2.high - s2.low + 1 = (s.high - s.low + 1) * 2 →
        (∀ fuel, decode_renorm (fuel + 1) s = decode_renorm fuel s2) →
        ∃ k, k ≤ n + 1 ∧ decode_renorm k s = none ∧
          ∃ r, decode_renorm (k + 1) s = some r ∧
            r.high - r.low + 1 = 2 ^ k * (s.high - s.low + 1) ∧
            Renormalized r.low r.high := by
      intro s2 a1 a2 a3 a4
      obtain ⟨k, hk, e1, r, e2, e3, e4⟩ := ih s2 a1 a2 (by rw [a3, Nat.mul_assoc]; exact h3)
      refine ⟨k + 1, by omega, by rw [a4]; exact e1, r, by rw [a4]; exact e2, ?_, e4⟩
      rw [e3, a3, pow_succ]
      ring
    by_cases c1 : s.high < 32768
    · apply fire ⟨2 * s.low % UINT_MOD, (2 * s.high + 1) % UINT_MOD,
        (2 * s.value + (input_bit s.g s.inp).1) % UINT_MOD,
        (input_bit s.g s.inp).2.1, (input_bit s.g s.inp).2.2⟩
      · show 2 * s.low % 4294967296 ≤ (2 * s.high + 1) % 4294967296
        omega
      · show (2 * s.high + 1) % 4294967296 ≤ 65535
        omega
      · show (2 * s.high + 1) % 4294967296 - 2 * s.low % 4294967296 + 1 = _
        omega
      · intro fuel
        simp only [decode_renorm, HALF_eq]
        rw [if_pos c1]
    · by_cases c2 : s.low ≥ 32768
      · apply fire ⟨2 * usub s.low HALF % UINT_MOD, (2 * usub s.high HALF + 1) % UINT_MOD,
          (2 * usub s.value HALF + (input_bit s.g s.inp).1) % UINT_MOD,
          (input_bit s.g s.inp).2.1, (input_bit s.g s.inp).2.2⟩
        · show 2 * ((s.low + 4294967296 - HALF) % 4294967296) % 4294967296
            ≤ (2 * ((s.high + 4294967296 - HALF) % 4294967296) + 1) % 4294967296
          rw [HALF_eq]
          omega
        · show (2 * ((s.high + 4294967296 - HALF) % 4294967296) + 1) % 4294967296 ≤ 65535
          rw [HALF_eq]
          omega
        · show (2 * ((s.high + 4294967296 - HALF) % 4294967296) + 1) % 4294967296
            - 2 * ((s.low + 4294967296 - HALF) % 4294967296) % 4294967296 + 1 = _
          rw [HALF_eq]
          omega
        · intro fuel
          simp only [decode_renorm, HALF_eq]
          rw [if_neg c1, if_pos c2]
      · by_cases c3 : s.low ≥ 16384 ∧ s.high < 49152
        · apply fire ⟨2 * usub s.low ONE_QUARTER % UINT_MOD,
            (2 * usub s.high ONE_QUARTER + 1) % UINT_MOD,
            (2 * usub s.value ONE_QUARTER + (input_bit s.g s.inp).1) % UINT_MOD,
            (input_bit s.g s.inp).2.1, (input_bit s.g s.inp).2.2⟩
          · show 2 * ((s.low + 4294967296 - ONE_QUARTER) % 4294967296) % 4294967296
              ≤ (2 * ((s.high + 4294967296 - ONE_QUARTER) % 4294967296) + 1) % 4294967296
            rw [ONE_QUARTER_eq]
            omega
          · show (2 * ((s.high + 4294967296 - ONE_QUARTER) % 4294967296) + 1) % 4294967296
              ≤ 65535
            rw [ONE_QUARTER_eq]
            omega
          · show (2 * ((s.high + 4294967296 - ONE_QUARTER) % 4294967296) + 1) % 4294967296
              - 2 * ((s.low + 4294967296 - ONE_QUARTER) % 4294967296) % 4294967296 + 1 = _
            rw [ONE_QUARTER_eq]
            omega
          · intro fuel
            simp only [decode_renorm, HALF_eq, ONE_QUARTER_eq, THREE_QUARTERS_eq]
            rw [if_neg c1, if_neg c2, if_pos c3]
        · refine ⟨0, Nat.zero_le _, rfl, s, ?_, by simp, ?_⟩
          · simp only [decode_renorm, HALF_eq, ONE_QUARTER_eq, THREE_QUARTERS_eq]
            rw [if_neg c1, if_neg c2, if_neg c3]
          · rw [renormalized_iff]
            omega


end ArithCoding

/-! ## The file written by the closing step of `encode` -/

namespace ArithCoding

/-- The file after `bits_plus_follow(b)` and the flush: its bits are the bits
written before, `b`, the pending complements, and `pad` zero bits that fill
the last byte, with `pad` between 1 and 8. -/
theorem flush_after_follow (b : Nat) (hb : b ≤ 1) (g : BitState) (hg : ChannelOK g)
    (f : List Nat) :
    ∃ pad, 1 ≤ pad ∧ pad ≤ 8 ∧
      (flush_buffer (bits_plus_follow b g f).1 (bits_plus_follow b g f).2).flatMap byte_bits
        = bits_written g f ++ (b :: List.replicate g.e3_counter (lnot b))
          ++ List.replicate pad 0 := by
  have hbits : ∀ x ∈ b :: List.replicate g.e3_counter (lnot b), x ≤ 1 := by
    intro x hx
    rcases List.mem_cons.mp hx with h | h
    · omega
    · rw [List.eq_of_mem_replicate h]
      unfold lnot
      split_ifs <;> omega
  obtain ⟨w1, w2⟩ := write_bits_written _ g f hbits hg
  obtain ⟨p1, p2, p3⟩ := w2
  rw [bits_plus_follow_eq]
  refine ⟨(write_bits (b :: List.replicate g.e3_counter (lnot b)) g f).1.bits_to_go.toNat,
    by omega, by omega, ?_⟩
  unfold flush_buffer putc
  rw [List.flatMap_append, List.flatMap_singleton, byte_bits_mod]
  have hfl := flush_byte_bits
    { (write_bits (b :: List.replicate g.e3_counter (lnot b)) g f).1 with e3_counter := 0 }
    ⟨p1, p2, p3⟩
  simp only [] at hfl ⊢
  rw [hfl, ← List.append_assoc, ← w1]
  rfl

/-- The fill loop on `n` bits after a start `v`: the start is shifted by `n`
places and the bits fill the places below. -/
theorem foldl_bits (bits : List Nat) (hb : ∀ b ∈ bits, b ≤ 1) : ∀ v : Nat,
    bits.foldl (fun v b => 2 * v + b) v = v * 2 ^ bits.length + value_of_bits bits ∧
    value_of_bits bits < 2 ^ bits.length := by
  induction bits with
  | nil =>
    intro v
    simp [value_of_bits]
  | cons x xs ih =>
    intro v
    have hx := hb x (List.mem_cons_self _ _)
    have ih2 := ih (fun b h => hb b (List.mem_cons_of_mem _ h))
    have e1 := (ih2 (2 * v + x)).1
    have e2 := (ih2 (2 * 0 + x)).1
    have e3 := (ih2 0).2
    unfold value_of_bits at e2 e3 ⊢
    simp only [List.foldl_cons, List.length_cons]
    rw [e1, e2]
    unfold value_of_bits
    rw [pow_succ]
    constructor
    · ring
    · nlinarith

/-- A 16-bit value that starts with the bits `b1`, `b0` is
`(2 * b1 + b0) * 2^14` plus a remainder below `2^14`. -/
theorem value_of_two_bits (b1 b0 : Nat) (rest : List Nat) (hl : rest.length = 14)
    (hb : ∀ b ∈ rest, b ≤ 1) :
    value_of_bits (b1 :: b0 :: rest) / ONE_QUARTER = 2 * b1 + b0 := by
  have h := foldl_bits rest hb (2 * (2 * 0 + b1) + b0)
  rw [hl] at h
  unfold value_of_bits at h ⊢
  simp only [List.foldl_cons]
  rw [h.1, ONE_QUARTER_eq]
  have h2 := h.2
  unfold value_of_bits at h2
  omega

theorem length_flatMap_byte_bits (l : List Nat) :
    (l.flatMap byte_bits).length = 8 * l.length := by
  induction l with
  | nil => rfl
  | cons x xs ih =>
    rw [List.flatMap_cons, List.length_append, ih, List.length_cons]
    unfold byte_bits
    rw [List.length_map, List.length_range]
    omega

/-- The closing step on the final state of `encode` for the empty input
writes the byte `0x02` after the byte `0x00` already in the file. -/
theorem encode_finish_empty_input :
    encode_finish
      { low := 0, high := 65279, g := { buffer := 0, bits_to_go := 8, e3_counter := 0 },
        out := [0] } = [0, 2] := by decide

/-- The closing step with `low >= ONE_QUARTER`, two pending complements and
three bits `1 0 1` waiting in the buffer: the last byte is `1 0 1`, then
`1 0 0 0`, then one zero bit. -/
theorem encode_finish_upper_example :
    encode_finish
      { low := 0x5000, high := 0xD000,
        g := { buffer := 0xA0, bits_to_go := 5, e3_counter := 2 }, out := [0x7D] }
      = [0x7D, 0x0D] := by decide

set_option maxRecDepth 1000000 in
/-- The pass of `encode` for the end of an empty input leaves the state on
which the closing step then runs. -/
theorem encode_empty_final_state :
    (encode_symbol 17 EOF_SYMBOL initialize_model
      { low := 0, high := MAX_VALUE, g := { buffer := 0, bits_to_go := 8, e3_counter := 0 },
        out := [] }).map
      (fun s => (s.low, s.high, s.g.buffer, s.g.bits_to_go, s.g.e3_counter, s.out))
    = some ((0 : Nat), (65279 : Nat), (0 : Nat), (8 : Int), (0 : Nat), ([0] : List Nat)) := by
  rfl

end ArithCoding

/-! ## Radix sort: arrays and digit groups -/

namespace RadixSort

theorem rd_wr_int (a : List Int) (i j : Nat) (v : Int) (hi : i < a.length) :
    rd (wr a i v) j = if j = i then v else rd a j := by
  unfold rd wr
  by_cases h : j = i
  · subst h
    rw [if_pos rfl, List.getD_eq_getElem _ _ (by rw [List.length_set]; exact hi)]
    exact List.getElem_set_self _
  · rw [if_neg h]
    simp only [List.getD_eq_getElem?_getD]
    rw [List.getElem?_set_ne (Ne.symm h)]

theorem length_wr_int (a : List Int) (i : Nat) (v : Int) : (wr a i v).length = a.length := by
  unfold wr
  exact List.length_set _ _ _

theorem rd_mem (a : List Int) (i : Nat) (hi : i < a.length) : rd a i ∈ a := by
  unfold rd
  rw [List.getD_eq_getElem _ _ hi]
  exact List.getElem_mem _

theorem take_succ_rd (a : List Int) (i : Nat) (hi : i < a.length) :
    a.take (i + 1) = a.take i ++ [rd a i] := by
  unfold rd
  rw [List.take_succ, List.getD_eq_getElem _ _ hi, List.getElem?_eq_getElem hi]
  rfl

theorem eq_of_rd_eq (a b : List Int) (hl : a.length = b.length)
    (h : ∀ p, p < a.length → rd a p = rd b p) : a = b := by
  apply List.ext_getElem hl
  intro p h1 h2
  have := h p h1
  unfold rd at this
  rw [List.getD_eq_getElem _ _ h1, List.getD_eq_getElem _ _ h2] at this
  exact this

/-! ### `getMax` -/

theorem getMax_loop_spec (arr : List Int) :
    ∀ (k i : Nat) (max : Int), i + k = arr.length → max ∈ arr →
      (∀ p, p < i → rd arr p ≤ max) →
      getMax_loop arr k i max ∈ arr ∧ ∀ p, p < arr.length → rd arr p ≤ getMax_loop arr k i max := by
  intro k
  induction k with
  | zero =>
    intro i max hik hm hle
    exact ⟨hm, fun p hp => hle p (by omega)⟩
  | succ k ih =>
    intro i max hik hm hle
    unfold getMax_loop
    apply ih (i + 1) _ (by omega)
    · split_ifs
      · exact rd_mem arr i (by omega)
      · exact hm
    · intro p hp
      by_cases hpi : p = i
      · subst hpi
        split_ifs <;> omega
      · have := hle p (by omega)
        split_ifs <;> omega

theorem getMax_spec (arr : List Int) (n : Nat) (hn : arr.length = n) (hpos : 0 < n) :
    getMax arr n ∈ arr ∧ ∀ x, x ∈ arr → x ≤ getMax arr n := by
  unfold getMax
  have h := getMax_loop_spec arr (n - 1) 1 (rd arr 0) (by omega) (rd_mem arr 0 (by omega))
    (fun p hp => by
      have : p = 0 := by omega
      subst this
      exact Int.le_refl _)
  refine ⟨h.1, ?_⟩
  intro x hx
  obtain ⟨p, hp, rfl⟩ := List.getElem_of_mem hx
  have := h.2 p hp
  unfold rd at this
  rw [List.getD_eq_getElem _ _ hp] at this
  exact this

/-! ### Digit groups -/

theorem below_succ_perm (exp : Int) (k : Nat) (arr : List Int) :
    (below_digit exp k arr ++ with_digit exp k arr).Perm (below_digit exp (k + 1) arr) := by
  unfold below_digit with_digit
  induction arr with
  | nil => exact List.Perm.refl _
  | cons x l ih =>
    simp only [List.filter_cons, decide_eq_true_eq]
    split_ifs with a b c <;>
      first
      | omega
      | exact List.Perm.cons _ ih
      | exact List.Perm.trans List.perm_middle (List.Perm.cons _ ih)
      | exact ih

theorem length_below_succ (exp : Int) (k : Nat) (arr : List Int) :
    (below_digit exp (k + 1) arr).length
      = (below_digit exp k arr).length + (with_digit exp k arr).length := by
  rw [← (below_succ_perm exp k arr).length_eq, List.length_append]

theorem groups_succ (exp : Int) (arr : List Int) (k : Nat) :
    groups exp arr (k + 1) = groups exp arr k ++ with_digit exp k arr := by
  unfold groups
  rw [List.range_succ, List.flatMap_append]
  simp

theorem below_zero (exp : Int) (arr : List Int) (hd : ∀ x, x ∈ arr → 0 ≤ digit x exp) :
    below_digit exp 0 arr = [] := by
  unfold below_digit
  rw [List.filter_eq_nil_iff]
  intro x hx
  have := hd x hx
  simp only [decide_eq_true_eq]
  omega

theorem below_ten (exp : Int) (arr : List Int) (hd : ∀ x, x ∈ arr → digit x exp < 10) :
    below_digit exp 10 arr = arr := by
  unfold below_digit
  rw [List.filter_eq_self]
  intro x hx
  have := hd x hx
  simp only [decide_eq_true_eq]
  omega

theorem groups_perm (exp : Int) (arr : List Int) (hd : ∀ x, x ∈ arr → 0 ≤ digit x exp) :
    ∀ k, (groups exp arr k).Perm (below_digit exp k arr) := by
  intro k
  induction k with
  | zero =>
    rw [below_zero exp arr hd]
    exact List.Perm.refl _
  | succ k ih =>
    rw [groups_succ]
    exact List.Perm.trans (List.Perm.append_right _ ih) (below_succ_perm exp k arr)

theorem length_groups (exp : Int) (arr : List Int) (hd : ∀ x, x ∈ arr → 0 ≤ digit x exp)
    (k : Nat) : (groups exp arr k).length = (below_digit exp k arr).length :=
  (groups_perm exp arr hd k).length_eq

theorem below_mono (exp : Int) (arr : List Int) (j k : Nat) (h : j ≤ k) :
    (below_digit exp j arr).length ≤ (below_digit exp k arr).length := by
  induction k with
  | zero =>
    have : j = 0 := by omega
    subst this
    exact Nat.le_refl _
  | succ k ih =>
    by_cases hj : j = k + 1
    · subst hj
      exact Nat.le_refl _
    · have := ih (by omega)
      rw [length_below_succ]
      omega

theorem stable_by_digit_perm (exp : Int) (arr : List Int)
    (hd : ∀ x, x ∈ arr → 0 ≤ digit x exp ∧ digit x exp < 10) :
    (stable_by_digit exp arr).Perm arr := by
  have h := groups_perm exp arr (fun x hx => (hd x hx).1) 10
  rw [below_ten exp arr (fun x hx => (hd x hx).2)] at h
  exact h

/-- Cell `S_j + t` of the grouped list is element `t` of group `j`. -/
theorem rd_groups (exp : Int) (arr : List Int) (hd : ∀ x, x ∈ arr → 0 ≤ digit x exp)
    (j t : Nat) (ht : t < (with_digit exp j arr).length) :
    ∀ k, j < k →
      rd (groups exp arr k) ((below_digit exp j arr).length + t) = rd (with_digit exp j arr) t := by
  intro k
  induction k with
  | zero => intro h; omega
  | succ k ih =>
    intro hjk
    rw [groups_succ]
    unfold rd
    by_cases h : j = k
    · subst h
      rw [List.getD_append_right _ _ _ _ (by rw [length_groups exp arr hd]; omega),
        length_groups exp arr hd]
      congr 1
      omega
    · have hlt : (below_digit exp j arr).length + t < (groups exp arr k).length := by
        rw [length_groups exp arr hd]
        have h1 := below_mono exp arr (j + 1) k (by omega)
        rw [length_below_succ] at h1
        omega
      rw [List.getD_append _ _ _ _ hlt]
      exact ih (by omega)

/-- Every index below the length of `arr` is cell `t` of some group `j`. -/
theorem index_in_group (exp : Int) (arr : List Int) (p : Nat) :
    ∀ k, p < (below_digit exp k arr).length → (below_digit exp 0 arr).length = 0 →
      ∃ j t, j < k ∧ t < (with_digit exp j arr).length ∧
        p = (below_digit exp j arr).length + t := by
  intro k
  induction k with
  | zero => intro h h0; omega
  | succ k ih =>
    intro h h0
    rw [length_below_succ] at h
    by_cases hp : p < (below_digit exp k arr).length
    · obtain ⟨j, t, hj, ht, e⟩ := ih hp h0
      exact ⟨j, t, by omega, ht, e⟩
    · exact ⟨k, p - (below_digit exp k arr).length, by omega, by omega, by omega⟩

end RadixSort

/-! ## Radix sort: the four loops of `countSort` -/

namespace RadixSort

theorem with_digit_append (exp : Int) (j : Nat) (l1 l2 : List Int) :
    with_digit exp j (l1 ++ l2) = with_digit exp j l1 ++ with_digit exp j l2 := by
  unfold with_digit
  exact List.filter_append _ _

theorem with_digit_single (exp : Int) (j : Nat) (x : Int) :
    with_digit exp j [x] = if digit x exp = (j : Int) then [x] else [] := by
  unfold with_digit
  simp only [List.filter_cons, List.filter_nil, decide_eq_true_eq]

theorem length_with_digit_take_succ (exp : Int) (j : Nat) (arr : List Int) (i : Nat)
    (hi : i < arr.length) :
    (with_digit exp j (arr.take (i + 1))).length
      = (with_digit exp j (arr.take i)).length
        + (if digit (rd arr i) exp = (j : Int) then 1 else 0) := by
  rw [take_succ_rd arr i hi, with_digit_append, List.length_append, with_digit_single]
  split_ifs <;> rfl

theorem length_with_digit_take_le (exp : Int) (j : Nat) (arr : List Int) (i : Nat) :
    (with_digit exp j (arr.take i)).length ≤ (with_digit exp j arr).length := by
  have e : with_digit exp j arr
      = with_digit exp j (arr.take i) ++ with_digit exp j (arr.drop i) := by
    rw [← with_digit_append, List.take_append_drop]
  rw [e, List.length_append]
  omega

theorem rd_with_digit_middle (exp : Int) (j : Nat) (l1 l2 : List Int) (x : Int)
    (hx : digit x exp = (j : Int)) :
    rd (with_digit exp j (l1 ++ x :: l2)) (with_digit exp j l1).length = x := by
  have e : with_digit exp j (l1 ++ x :: l2)
      = with_digit exp j l1 ++ x :: with_digit exp j l2 := by
    rw [with_digit_append]
    congr 1
    unfold with_digit
    rw [List.filter_cons_of_pos (by simp only [decide_eq_true_eq]; exact hx)]
  rw [e]
  unfold rd
  rw [List.getD_append_right _ _ _ _ (Nat.le_refl _), Nat.sub_self]
  rfl

theorem rd_with_digit_take (exp : Int) (j : Nat) (arr : List Int) (i : Nat)
    (hi : i < arr.length) (hx : digit (rd arr i) exp = (j : Int)) :
    rd (with_digit exp j arr) (with_digit exp j (arr.take i)).length = rd arr i := by
  have e : arr = arr.take i ++ rd arr i :: arr.drop (i + 1) := by
    unfold rd
    rw [List.getD_eq_getElem _ _ hi, ← List.drop_eq_getElem_cons hi, List.take_append_drop]
  have h := rd_with_digit_middle exp j (arr.take i) (arr.drop (i + 1)) (rd arr i) hx
  rw [← e] at h
  exact h

theorem getD_set_opt (o : List (Option Int)) (i j : Nat) (v : Option Int)
    (hi : i < o.length) :
    (o.set i v).getD j none = if j = i then v else o.getD j none := by
  by_cases h : j = i
  · subst h
    rw [if_pos rfl, List.getD_eq_getElem _ _ (by rw [List.length_set]; exact hi)]
    exact List.getElem_set_self _
  · rw [if_neg h]
    simp only [List.getD_eq_getElem?_getD]
    rw [List.getElem?_set_ne (Ne.symm h)]

/-! ### First loop: digit counts -/

theorem count_loop_spec (arr : List Int) (exp : Int)
    (hd : ∀ x, x ∈ arr → 0 ≤ digit x exp ∧ digit x exp < 10) :
    ∀ (k i : Nat) (count : List Int), i + k = arr.length → count.length = 10 →
      (∀ j, j < 10 → rd count j = ((with_digit exp j (arr.take i)).length : Int)) →
      ∃ c, count_loop arr exp k i count = some c ∧ c.length = 10 ∧
        ∀ j, j < 10 → rd c j = ((with_digit exp j arr).length : Int) := by
  intro k
  induction k with
  | zero =>
    intro i count hik hl hc
    refine ⟨count, rfl, hl, ?_⟩
    intro j hj
    have := hc j hj
    rw [List.take_of_length_le (by omega)] at this
    exact this
  | succ k ih =>
    intro i count hik hl hc
    have hi : i < arr.length := by omega
    have hx := hd _ (rd_mem arr i hi)
    unfold count_loop
    rw [if_pos hx]
    apply ih (i + 1) _ (by omega) (by rw [length_wr_int]; exact hl)
    intro j hj
    rw [rd_wr_int _ _ _ _ (by omega), length_with_digit_take_succ exp j arr i hi]
    by_cases h : j = (digit (rd arr i) exp).toNat
    · rw [if_pos h, ← h, hc j hj, if_pos (by omega)]
      push_cast
      rfl
    · rw [if_neg h, hc j hj, if_neg (by omega)]
      rfl

/-! ### Second loop: running sums -/

theorem sum_loop_spec (arr : List Int) (exp : Int) :
    ∀ (k i : Nat) (count : List Int), 1 ≤ i → i + k = 10 → count.length = 10 →
      (∀ j, j < 10 → rd count j
        = if j < i then ((below_digit exp (j + 1) arr).length : Int)
          else ((with_digit exp j arr).length : Int)) →
      (sum_loop k i count).length = 10 ∧
        ∀ j, j < 10 → rd (sum_loop k i count) j = ((below_digit exp (j + 1) arr).length : Int) := by
  intro k
  induction k with
  | zero =>
    intro i count h1 hik hl hc
    unfold sum_loop
    refine ⟨hl, ?_⟩
    intro j hj
    rw [hc j hj, if_pos (by omega)]
  | succ k ih =>
    intro i count h1 hik hl hc
    unfold sum_loop
    apply ih (i + 1) _ (by omega) (by omega) (by rw [length_wr_int]; exact hl)
    intro j hj
    rw [rd_wr_int _ _ _ _ (by omega)]
    by_cases h : j = i
    · subst h
      rw [if_pos rfl, if_pos (by omega), hc j hj, if_neg (by omega), hc (j - 1) (by omega),
        if_pos (by omega)]
      have e : j - 1 + 1 = j := by omega
      rw [e, length_below_succ]
      push_cast
      omega
    · rw [if_neg h, hc j hj]
      by_cases h2 : j < i
      · rw [if_pos h2, if_pos (by omega)]
      · rw [if_neg h2, if_neg (by omega)]

/-! ### Third loop: placement from the back -/

theorem place_loop_spec (arr : List Int) (n : Nat) (exp : Int) (hn : arr.length = n)
    (hd : ∀ x, x ∈ arr → 0 ≤ digit x exp ∧ digit x exp < 10) :
    ∀ (i : Nat) (count : List Int) (output : List (Option Int)), i ≤ n →
      count.length = 10 → output.length = n →
      (∀ j, j < 10 → rd count j
        = (((below_digit exp j arr).length + (with_digit exp j (arr.take i)).length : Nat) : Int)) →
      (∀ j t, j < 10 → (with_digit exp j (arr.take i)).length ≤ t →
        t < (with_digit exp j arr).length →
        output.getD ((below_digit exp j arr).length + t) none
          = some (rd (with_digit exp j arr) t)) →
      ∃ r, place_loop arr n exp i count output = some r ∧ r.2.length = n ∧
        ∀ j t, j < 10 → t < (with_digit exp j arr).length →
          r.2.getD ((below_digit exp j arr).length + t) none
            = some (rd (with_digit exp j arr) t) := by
  intro i
  induction i with
  | zero =>
    intro count output _ hl ho hc hout
    refine ⟨(count, output), rfl, ho, ?_⟩
    intro j t hj ht
    exact hout j t hj (by rw [List.take_zero]; exact Nat.zero_le _) ht
  | succ i ih =>
    intro count output hin hl ho hc hout
    have hi : i < arr.length := by omega
    have hx := hd _ (rd_mem arr i hi)
    have hten : (below_digit exp 10 arr).length = n := by
      rw [below_ten exp arr (fun x hx => (hd x hx).2)]
      exact hn
    -- the digit of the element and its group
    generalize hj0 : (digit (rd arr i) exp).toNat = j0
    have hdj : digit (rd arr i) exp = (j0 : Int) := by omega
    have hj0lt : j0 < 10 := by omega
    have hA := length_with_digit_take_succ exp j0 arr i hi
    rw [if_pos hdj] at hA
    have hle := length_with_digit_take_le exp j0 arr (i + 1)
    have hS := length_below_succ exp j0 arr
    have hmono := below_mono exp arr (j0 + 1) 10 (by omega)
    have hpos : rd count j0 - 1
        = (((below_digit exp j0 arr).length + (with_digit exp j0 (arr.take i)).length : Nat)
            : Int) := by
      rw [hc j0 hj0lt, hA]
      push_cast
      omega
    have hposn : (below_digit exp j0 arr).length + (with_digit exp j0 (arr.take i)).length < n := by
      omega
    unfold place_loop
    rw [if_pos hx, hj0, hpos, if_pos ⟨by omega, by omega⟩, Int.toNat_ofNat]
    apply ih _ _ (by omega) (by rw [length_wr_int]; exact hl)
      (by rw [List.length_set]; exact ho)
    · intro j hj
      rw [rd_wr_int _ _ _ _ (by omega)]
      by_cases h : j = j0
      · subst h
        rw [if_pos rfl]
      · rw [if_neg h, hc j hj, length_with_digit_take_succ exp j arr i hi,
          if_neg (by omega)]
        rfl
    · intro j t hj ht1 ht2
      rw [getD_set_opt _ _ _ _ (by omega)]
      by_cases h : j = j0
      · subst h
        by_cases h2 : t = (with_digit exp j (arr.take i)).length
        · subst h2
          rw [if_pos rfl, rd_with_digit_take exp j arr i hi hdj]
        · rw [if_neg (by omega)]
          exact hout j t hj (by omega) ht2
      · have hAj := length_with_digit_take_succ exp j arr i hi
        rw [if_neg (by omega)] at hAj
        have hSj := length_below_succ exp j arr
        have hne : (below_digit exp j arr).length + t
            ≠ (below_digit exp j0 arr).length + (with_digit exp j0 (arr.take i)).length := by
          by_cases hlt : j < j0
          · have := below_mono exp arr (j + 1) j0 (by omega)
            omega
          · have := below_mono exp arr (j0 + 1) j (by omega)
            omega
        rw [if_neg hne]
        exact hout j t hj (by omega) ht2

/-! ### Fourth loop: copy back -/

theorem copy_loop_spec (output : List (Option Int)) (T : List Int)
    (hout : ∀ p, p < T.length → output.getD p none = some (rd T p)) :
    ∀ (k i : Nat) (a : List Int), i + k = T.length → a.length = T.length →
      (∀ p, p < i → rd a p = rd T p) → copy_loop output k i a = some T := by
  intro k
  induction k with
  | zero =>
    intro i a hik hl ha
    unfold copy_loop
    rw [eq_of_rd_eq a T hl (fun p hp => ha p (by omega))]
  | succ k ih =>
    intro i a hik hl ha
    unfold copy_loop
    rw [hout i (by omega)]
    apply ih (i + 1) _ (by omega) (by rw [length_wr_int]; exact hl)
    intro p hp
    rw [rd_wr_int _ _ _ _ (by omega)]
    by_cases h : p = i
    · rw [if_pos h, h]
    · rw [if_neg h]
      exact ha p (by omega)

/-! ### `countSort` is the stable sort by the digit -/

theorem countSort_spec (arr : List Int) (n : Nat) (exp : Int) (hn : arr.length = n)
    (hd : ∀ x, x ∈ arr → 0 ≤ digit x exp ∧ digit x exp < 10) :
    countSort arr n exp = some (stable_by_digit exp arr) := by
  have hd1 : ∀ x, x ∈ arr → 0 ≤ digit x exp := fun x hx => (hd x hx).1
  have hten : below_digit exp 10 arr = arr := below_ten exp arr (fun x hx => (hd x hx).2)
  have hzero : below_digit exp 0 arr = [] := below_zero exp arr hd1
  obtain ⟨c, hc1, hc2, hc3⟩ := count_loop_spec arr exp hd n 0 (List.replicate 10 0)
    (by omega) (List.length_replicate _ _) (by
      intro j hj
      rw [List.take_zero]
      unfold rd
      rw [List.getD_eq_getElem _ _ (by rw [List.length_replicate]; exact hj),
        List.getElem_replicate]
      rfl)
  obtain ⟨hs1, hs2⟩ := sum_loop_spec arr exp 9 1 c (Nat.le_refl _) rfl hc2 (by
    intro j hj
    rw [hc3 j hj]
    by_cases h : j < 1
    · have : j = 0 := by omega
      subst this
      rw [if_pos h, length_below_succ, hzero]
      simp
    · rw [if_neg h])
  obtain ⟨r, hr1, hr2, hr3⟩ := place_loop_spec arr n exp hn hd n (sum_loop 9 1 c)
    (List.replicate n none) (Nat.le_refl _) hs1 (List.length_replicate _ _) (by
      intro j hj
      rw [hs2 j hj, length_below_succ, List.take_of_length_le (by omega)])
    (by
      intro j t hj h1 h2
      rw [List.take_of_length_le (by omega)] at h1
      omega)
  have hT : (stable_by_digit exp arr).length = n := by
    unfold stable_by_digit
    rw [length_groups exp arr hd1, hten]
    exact hn
  unfold countSort
  rw [hc1]
  simp only []
  rw [hr1]
  simp only []
  rw [← hT]
  apply copy_loop_spec r.2 (stable_by_digit exp arr) _ _ 0 arr (by omega) (by omega)
    (fun p hp => by omega)
  intro p hp
  obtain ⟨j, t, hj, ht, e⟩ := index_in_group exp arr p 10 (by rw [hten]; omega)
    (by rw [hzero]; rfl)
  rw [e, hr3 j t hj ht]
  unfold stable_by_digit
  rw [rd_groups exp arr hd1 j t ht 10 hj]

end RadixSort

/-! ## Radix sort: the passes from the least significant digit -/

namespace RadixSort

theorem digit_bounds (x exp : Int) (hx : 0 ≤ x) (he : 0 < exp) :
    0 ≤ digit x exp ∧ digit x exp < 10 := by
  unfold digit
  rw [Int.tdiv_eq_ediv hx (Int.le_of_lt he),
    Int.tmod_eq_emod (Int.ediv_nonneg hx (Int.le_of_lt he)) (by decide)]
  exact ⟨Int.emod_nonneg _ (by decide), Int.emod_lt_of_pos _ (by decide)⟩

theorem digit_toNat (x : Int) (hx : 0 ≤ x) (e : Nat) :
    digit x ((10 : Int) ^ e) = ((x.toNat / 10 ^ e % 10 : Nat) : Int) := by
  have hp : (0 : Int) < (10 : Int) ^ e := by positivity
  unfold digit
  rw [Int.tdiv_eq_ediv hx (Int.le_of_lt hp),
    Int.tmod_eq_emod (Int.ediv_nonneg hx (Int.le_of_lt hp)) (by decide)]
  obtain ⟨a, rfl⟩ := Int.eq_ofNat_of_zero_le hx
  rw [Int.toNat_ofNat]
  push_cast
  rfl

theorem mem_groups (exp : Int) (arr : List Int) (hd : ∀ x, x ∈ arr → 0 ≤ digit x exp)
    (k : Nat) (a : Int) (ha : a ∈ groups exp arr k) : a ∈ arr ∧ digit a exp < (k : Int) := by
  rw [(groups_perm exp arr hd k).mem_iff] at ha
  unfold below_digit at ha
  rw [List.mem_filter] at ha
  exact ⟨ha.1, by simpa using ha.2⟩

theorem mem_with_digit (exp : Int) (arr : List Int) (k : Nat) (a : Int)
    (ha : a ∈ with_digit exp k arr) : a ∈ arr ∧ digit a exp = (k : Int) := by
  unfold with_digit at ha
  rw [List.mem_filter] at ha
  exact ⟨ha.1, by simpa using ha.2⟩

/-- A relation that holds inside every group, and from a smaller digit to a
larger one, holds pairwise in the grouped list. -/
theorem groups_pairwise (R : Int → Int → Prop) (exp : Int) (arr : List Int)
    (hd : ∀ x, x ∈ arr → 0 ≤ digit x exp)
    (hin : ∀ k, (with_digit exp k arr).Pairwise R)
    (hcross : ∀ a b, a ∈ arr → b ∈ arr → digit a exp < digit b exp → R a b) :
    ∀ k, (groups exp arr k).Pairwise R := by
  intro k
  induction k with
  | zero => exact List.Pairwise.nil
  | succ k ih =>
    rw [groups_succ, List.pairwise_append]
    refine ⟨ih, hin k, ?_⟩
    intro a ha b hb
    obtain ⟨ha1, ha2⟩ := mem_groups exp arr hd k a ha
    obtain ⟨hb1, hb2⟩ := mem_with_digit exp arr k b hb
    exact hcross a b ha1 hb1 (by omega)

theorem with_digit_with_digit (exp : Int) (arr : List Int) (k j : Nat) :
    with_digit exp k (with_digit exp j arr) = if k = j then with_digit exp j arr else [] := by
  unfold with_digit
  rw [List.filter_filter]
  by_cases h : k = j
  · subst h
    rw [if_pos rfl]
    apply List.filter_congr
    intro x _
    simp
  · rw [if_neg h, List.filter_eq_nil_iff]
    intro x _
    simp only [Bool.and_eq_true, decide_eq_true_eq, not_and]
    intro h1 h2
    omega

theorem with_digit_groups (exp : Int) (arr : List Int) (k : Nat) :
    ∀ j, with_digit exp k (groups exp arr j) = if k < j then with_digit exp k arr else [] := by
  intro j
  induction j with
  | zero => rfl
  | succ j ih =>
    rw [groups_succ, with_digit_append, ih, with_digit_with_digit]
    by_cases h1 : k < j
    · rw [if_pos h1, if_neg (by omega), if_pos (by omega), List.append_nil]
    · by_cases h2 : k = j
      · rw [if_neg h1, if_pos h2, if_pos (by omega), List.nil_append, h2]
      · rw [if_neg h1, if_neg h2, if_neg (by omega), List.append_nil]

/-- The grouped list is ordered by the digit. -/
theorem stable_by_digit_pairwise (exp : Int) (arr : List Int)
    (hd : ∀ x, x ∈ arr → 0 ≤ digit x exp) :
    (stable_by_digit exp arr).Pairwise (fun a b => digit a exp ≤ digit b exp) := by
  unfold stable_by_digit
  apply groups_pairwise _ exp arr hd
  · intro k
    rw [List.pairwise_iff_forall_sublist]
    intro a b hab
    have ha := mem_with_digit exp arr k a (hab.subset (List.mem_cons_self _ _))
    have hb := mem_with_digit exp arr k b
      (hab.subset (List.mem_cons_of_mem _ (List.mem_cons_self _ _)))
    omega
  · intro a b _ _ h
    exact Int.le_of_lt h

/-- One pass keeps the order by the lower digits and adds the order by the
digit of the pass. -/
theorem stable_by_digit_step (e : Nat) (arr : List Int) (h0 : ∀ x, x ∈ arr → 0 ≤ x)
    (hp : arr.Pairwise (fun a b => a.toNat % 10 ^ e ≤ b.toNat % 10 ^ e)) :
    (stable_by_digit ((10 : Int) ^ e) arr).Pairwise
      (fun a b => a.toNat % 10 ^ (e + 1) ≤ b.toNat % 10 ^ (e + 1)) := by
  have hpos : (0 : Int) < (10 : Int) ^ e := by positivity
  have hd : ∀ x, x ∈ arr → 0 ≤ digit x ((10 : Int) ^ e) :=
    fun x hx => (digit_bounds x _ (h0 x hx) hpos).1
  unfold stable_by_digit
  apply groups_pairwise _ _ arr hd
  · intro k
    have h1 : (with_digit ((10 : Int) ^ e) k arr).Pairwise
        (fun a b => a.toNat % 10 ^ e ≤ b.toNat % 10 ^ e) := by
      unfold with_digit
      exact hp.filter _
    apply List.Pairwise.imp_of_mem _ h1
    intro a b ha hb hab
    obtain ⟨ha1, ha2⟩ := mem_with_digit _ arr k a ha
    obtain ⟨hb1, hb2⟩ := mem_with_digit _ arr k b hb
    rw [digit_toNat a (h0 a ha1)] at ha2
    rw [digit_toNat b (h0 b hb1)] at hb2
    have ea : a.toNat / 10 ^ e % 10 = k := by exact_mod_cast ha2
    have eb : b.toNat / 10 ^ e % 10 = k := by exact_mod_cast hb2
    show a.toNat % 10 ^ (e + 1) ≤ b.toNat % 10 ^ (e + 1)
    rw [Nat.mod_pow_succ, Nat.mod_pow_succ, ea, eb]
    omega
  · intro a b ha hb hab
    rw [digit_toNat a (h0 a ha), digit_toNat b (h0 b hb)] at hab
    have hlt : a.toNat / 10 ^ e % 10 < b.toNat / 10 ^ e % 10 := by exact_mod_cast hab
    show a.toNat % 10 ^ (e + 1) ≤ b.toNat % 10 ^ (e + 1)
    rw [Nat.mod_pow_succ, Nat.mod_pow_succ]
    have h1 : a.toNat % 10 ^ e < 10 ^ e := Nat.mod_lt _ (by positivity)
    have h2 : 10 ^ e * (a.toNat / 10 ^ e % 10 + 1) ≤ 10 ^ e * (b.toNat / 10 ^ e % 10) :=
      Nat.mul_le_mul_left _ hlt
    rw [Nat.mul_add, Nat.mul_one] at h2
    omega

/-- The loop of `radixSort` entered at `exp = 10 ^ e` with an array ordered
by the `e` lower digits ends with a sorted array. -/
theorem radix_loop_spec (n : Nat) (m : Int) (hm : m ≤ 999999999) (arr0 : List Int)
    (hb : ∀ x, x ∈ arr0 → 0 ≤ x ∧ x ≤ m) (hm0 : 0 ≤ m) :
    ∀ (k e fuel : Nat) (arr : List Int), e + k = 9 → k + 1 ≤ fuel → arr.length = n →
      arr.Perm arr0 → arr.Pairwise (fun a b => a.toNat % 10 ^ e ≤ b.toNat % 10 ^ e) →
      ∃ r, radix_loop n m fuel ((10 : Int) ^ e) arr = some r ∧
        r.Pairwise (fun a b => a ≤ b) ∧ r.Perm arr0 := by
  intro k
  induction k with
  | zero =>
    intro e fuel arr hek hf hl hperm hp
    have he : e = 9 := by omega
    subst he
    obtain ⟨f, rfl⟩ : ∃ f, fuel = f + 1 := ⟨fuel - 1, by omega⟩
    unfold radix_loop
    have hc : ¬ Int.tdiv m ((10 : Int) ^ 9) > 0 := by
      rw [Int.tdiv_eq_ediv hm0 (by norm_num)]
      have : m / (10 : Int) ^ 9 = 0 := Int.ediv_eq_zero_of_lt hm0 (by norm_num; omega)
      omega
    rw [if_neg hc]
    refine ⟨arr, rfl, ?_, hperm⟩
    apply List.Pairwise.imp_of_mem _ hp
    intro a b ha hb2 hab
    have ha1 := hb a (hperm.mem_iff.mp ha)
    have hb1 := hb b (hperm.mem_iff.mp hb2)
    have h1 : a.toNat % 10 ^ 9 = a.toNat := Nat.mod_eq_of_lt (by norm_num; omega)
    have h2 : b.toNat % 10 ^ 9 = b.toNat := Nat.mod_eq_of_lt (by norm_num; omega)
    rw [h1, h2] at hab
    omega
  | succ k ih =>
    intro e fuel arr hek hf hl hperm hp
    obtain ⟨f, rfl⟩ : ∃ f, fuel = f + 1 := ⟨fuel - 1, by omega⟩
    have hpos : (0 : Int) < (10 : Int) ^ e := by positivity
    have h0 : ∀ x, x ∈ arr → 0 ≤ x := fun x hx => (hb x (hperm.mem_iff.mp hx)).1
    unfold radix_loop
    by_cases hc : Int.tdiv m ((10 : Int) ^ e) > 0
    · rw [if_pos hc]
      have hd : ∀ x, x ∈ arr → 0 ≤ digit x ((10 : Int) ^ e) ∧ digit x ((10 : Int) ^ e) < 10 :=
        fun x hx => digit_bounds x _ (h0 x hx) hpos
      rw [countSort_spec arr n _ hl hd]
      simp only []
      have hpow : (10 : Int) ^ e * 10 = (10 : Int) ^ (e + 1) := by rw [pow_succ]
      have hle : (10 : Int) ^ (e + 1) ≤ (10 : Int) ^ 9 :=
        pow_le_pow_right₀ (by norm_num) (by omega)
      have hle2 : (10 : Int) ^ e * 10 ≤ INT_MAX := by
        rw [hpow]
        have : (10 : Int) ^ 9 ≤ INT_MAX := by decide
        omega
      rw [if_pos hle2, hpow]
      have hperm2 := stable_by_digit_perm ((10 : Int) ^ e) arr hd
      exact ih (e + 1) f _ (by omega) (by omega) (by rw [hperm2.length_eq]; exact hl)
        (hperm2.trans hperm) (stable_by_digit_step e arr h0 hp)
    · rw [if_neg hc]
      refine ⟨arr, rfl, ?_, hperm⟩
      rw [Int.tdiv_eq_ediv hm0 (Int.le_of_lt hpos)] at hc
      have hlt : m < (10 : Int) ^ e := by
        by_contra hge
        have : 1 ≤ m / (10 : Int) ^ e := by
          rw [Int.le_ediv_iff_mul_le hpos]
          omega
        omega
      apply List.Pairwise.imp_of_mem _ hp
      intro a b ha hb2 hab
      have ha1 := hb a (hperm.mem_iff.mp ha)
      have hb1 := hb b (hperm.mem_iff.mp hb2)
      have hcast : ((10 ^ e : Nat) : Int) = (10 : Int) ^ e := by push_cast; rfl
      have h1 : a.toNat % 10 ^ e = a.toNat := Nat.mod_eq_of_lt (by omega)
      have h2 : b.toNat % 10 ^ e = b.toNat := Nat.mod_eq_of_lt (by omega)
      rw [h1, h2] at hab
      omega

theorem radixSort_spec (arr : List Int) (n : Nat) (hn : arr.length = n) (hpos : 0 < n)
    (hb : ∀ x, x ∈ arr → 0 ≤ x ∧ x ≤ 999999999) (fuel : Nat) (hf : 10 ≤ fuel) :
    ∃ r, radixSort fuel arr n = some r ∧ r.Pairwise (fun a b => a ≤ b) ∧ r.Perm arr := by
  obtain ⟨hm1, hm2⟩ := getMax_spec arr n hn hpos
  unfold radixSort
  have h := radix_loop_spec n (getMax arr n) (hb _ hm1).2 arr
    (fun x hx => ⟨(hb x hx).1, hm2 x hx⟩) (hb _ hm1).1 9 0 fuel arr rfl (by omega) hn
    (List.Perm.refl _) (by
      apply List.pairwise_of_forall
      intro a b
      simp [Nat.mod_one])
  rw [pow_zero] at h
  exact h

end RadixSort

namespace ArithCoding

/-- C4. In every reachable model state the decoder's linear search is correct
and unambiguous: for every `count` below `cum_freq[0]` it returns a symbol `s`
in `0..256` with `cum_freq[s+1] <= count < cum_freq[s]`, no other symbol owns
`count`, and every symbol `s` is returned at both boundary counts
`cum_freq[s+1]` and `cum_freq[s] - 1`. -/
theorem locate_correct (m : Model) (hm : Reachable m) :
    (∀ count, count < rd m.cum_freq 0 →
      locate m count ≤ EOF_SYMBOL ∧
      rd m.cum_freq (locate m count + 1) ≤ count ∧
      count < rd m.cum_freq (locate m count) ∧
      ∀ t, t ≤ EOF_SYMBOL → rd m.cum_freq (t + 1) ≤ count → count < rd m.cum_freq t →
        t = locate m count) ∧
    (∀ s, s ≤ EOF_SYMBOL →
      locate m (rd m.cum_freq (s + 1)) = s ∧ locate m (rd m.cum_freq s - 1) = s) := by
  have inv := modelInv_of_reachable m hm
  constructor
  · intro count hc
    obtain ⟨a1, a2, a3⟩ := locate_spec m inv count hc
    exact ⟨a1, a2, a3, fun t ht h1 h2 =>
      owner_unique m inv count (locate m count) t a1 ht a2 a3 h1 h2⟩
  · intro s hs
    have hd := inv.cum_desc s (by simp only [EOF_SYMBOL, NO_OF_SYMBOLS, NO_OF_CHARS] at *; omega)
    exact ⟨locate_eq_of_owner m inv _ s hs (Nat.le_refl _) hd,
      locate_eq_of_owner m inv _ s hs (by omega) (by omega)⟩

/-- Witness for C4 at the freshly initialised model. -/
theorem locate_correct_witness :
    Reachable initialize_model ∧
    (∀ s, s ≤ EOF_SYMBOL →
      locate initialize_model (rd initialize_model.cum_freq (s + 1)) = s ∧
      locate initialize_model (rd initialize_model.cum_freq s - 1) = s) :=
  ⟨Reachable.init, (locate_correct initialize_model Reachable.init).2⟩

/-- C5. In every reachable model state every symbol `s` in `0..256` has a
non-empty cumulative range inside the total:
`cum_freq[s+1] < cum_freq[s] <= cum_freq[0]` (the lower bound `0 <= cum_freq[s+1]`
holds because the entries are natural numbers). -/
theorem symbol_range_nonempty (m : Model) (hm : Reachable m) (s : Nat)
    (hs : s ≤ EOF_SYMBOL) :
    0 ≤ rd m.cum_freq (s + 1) ∧ rd m.cum_freq (s + 1) < rd m.cum_freq s ∧
    rd m.cum_freq s ≤ rd m.cum_freq 0 := by
  have inv := modelInv_of_reachable m hm
  simp only [EOF_SYMBOL, NO_OF_CHARS] at hs
  exact ⟨Nat.zero_le _, inv.cum_desc s (by simp only [NO_OF_SYMBOLS, NO_OF_CHARS]; omega),
    cum_freq_le_of_le m inv 0 s (Nat.zero_le _) (by simp only [NO_OF_SYMBOLS, NO_OF_CHARS]; omega)⟩

/-- Witness for C5: the end marker after one update with the byte `0x41`. -/
theorem symbol_range_nonempty_witness :
    Reachable (update_model 0x41 initialize_model) ∧ EOF_SYMBOL ≤ EOF_SYMBOL ∧
    (0 ≤ rd (update_model 0x41 initialize_model).cum_freq (EOF_SYMBOL + 1) ∧
     rd (update_model 0x41 initialize_model).cum_freq (EOF_SYMBOL + 1)
       < rd (update_model 0x41 initialize_model).cum_freq EOF_SYMBOL ∧
     rd (update_model 0x41 initialize_model).cum_freq EOF_SYMBOL
       ≤ rd (update_model 0x41 initialize_model).cum_freq 0) :=
  ⟨Reachable.step 0x41 Reachable.init (by decide), Nat.le_refl _,
    symbol_range_nonempty _ (Reachable.step 0x41 Reachable.init (by decide)) EOF_SYMBOL
      (Nat.le_refl _)⟩

/-- C9. In every reachable model state the total count `cum_freq[0]` is at
least `257` and never exceeds the ceiling `MAX_FREQ = 16383`. -/
theorem total_within_ceiling (m : Model) (hm : Reachable m) :
    257 ≤ rd m.cum_freq 0 ∧ rd m.cum_freq 0 ≤ MAX_FREQ ∧ MAX_FREQ = 16383 := by
  have inv := modelInv_of_reachable m hm
  exact ⟨inv.total_ge, inv.total_le, rfl⟩

/-- Witness for C9 at the freshly initialised model. -/
theorem total_within_ceiling_witness :
    Reachable initialize_model ∧
    (257 ≤ rd initialize_model.cum_freq 0 ∧ rd initialize_model.cum_freq 0 ≤ MAX_FREQ ∧
      MAX_FREQ = 16383) :=
  ⟨Reachable.init, total_within_ceiling initialize_model Reachable.init⟩

/-- C6. Interval invariant. For every interval with `low <= high <= 0xFFFF`
the renormalization loops of `encode` and of `decode` stop (17 units of fuel
are enough) and leave `low' < high' <= 0xFFFF` with none of E1, E2, E3
holding. The interval `0 .. 0xFFFF` both functions start from is of that
form, and from an interval of that form one symbol step (narrowing with a
symbol in `0..256` of a reachable model, then renormalization) of `encode`
and of `decode` leads to an interval of that form again. -/
theorem interval_invariant (fuel : Nat) (hf : 17 ≤ fuel) (low high : Nat)
    (h1 : low ≤ high) (h2 : high ≤ MAX_VALUE) (m : Model) (hm : Reachable m)
    (symbol : Nat) (hs : symbol ≤ EOF_SYMBOL) :
    ((∀ g out, ∃ r, encode_renorm fuel { low := low, high := high, g := g, out := out } = some r ∧
        Renormalized r.low r.high) ∧
     (∀ value g inp, ∃ r,
        decode_renorm fuel { low := low, high := high, value := value, g := g, inp := inp }
          = some r ∧ Renormalized r.low r.high)) ∧
    Renormalized 0 MAX_VALUE ∧
    (Renormalized low high →
      (∀ g out, ∃ r,
        encode_symbol fuel symbol m { low := low, high := high, g := g, out := out } = some r ∧
          Renormalized r.low r.high) ∧
      (∀ value g inp, ∃ r,
        decode_symbol fuel symbol m
          { low := low, high := high, value := value, g := g, inp := inp } = some r ∧
          Renormalized r.low r.high)) := by
  rw [MAX_VALUE_eq] at h2
  refine ⟨⟨?_, ?_⟩, renormalized_start, ?_⟩
  · intro g out
    exact encode_renorm_post fuel _ h1 h2 (fuel_enough _ _ fuel hf)
  · intro value g inp
    exact decode_renorm_post fuel _ h1 h2 (fuel_enough _ _ fuel hf)
  · intro hr
    have inv := modelInv_of_reachable m hm
    exact ⟨fun g out => encode_symbol_post fuel hf m inv symbol hs _ hr,
      fun value g inp => decode_symbol_post fuel hf m inv symbol hs _ hr⟩

/-- Witness for C6: the first symbol step of `encode` on the byte `0x41`. -/
theorem interval_invariant_witness :
    (17 ≤ 17 ∧ 0 ≤ MAX_VALUE ∧ MAX_VALUE ≤ MAX_VALUE ∧ Reachable initialize_model ∧
      0x41 ≤ EOF_SYMBOL ∧ Renormalized 0 MAX_VALUE) ∧
    ∃ r, encode_symbol 17 0x41 initialize_model
        { low := 0, high := MAX_VALUE, g := { buffer := 0, bits_to_go := 8, e3_counter := 0 },
          out := [] } = some r ∧ Renormalized r.low r.high :=
  ⟨⟨Nat.le_refl _, Nat.zero_le _, Nat.le_refl _, Reachable.init, by decide, renormalized_start⟩,
    ((interval_invariant 17 (Nat.le_refl _) 0 MAX_VALUE (Nat.zero_le _) (Nat.le_refl _)
      initialize_model Reachable.init 0x41 (by decide)).2.2 renormalized_start).1
      { buffer := 0, bits_to_go := 8, e3_counter := 0 } []⟩

/-- C7. Deferred bits. For a bit `b` in `{0,1}` and a pending count
`N = e3_counter`, the call `bits_plus_follow(b)` makes exactly the calls of
`output_bit` for `b` followed by `N` copies of the complement `1 - b`, leaves
`e3_counter` equal to `0`, and on a channel with a one-byte buffer and between
one and eight free positions it appends exactly those `N + 1` bits, in that
order, to the bit stream written so far. -/
theorem bits_plus_follow_spec (b : Nat) (hb : b = 0 ∨ b = 1) (g : BitState) (f : List Nat) :
    bits_plus_follow b g f
      = ({ (write_bits (b :: List.replicate g.e3_counter (1 - b)) g f).1 with e3_counter := 0 },
          (write_bits (b :: List.replicate g.e3_counter (1 - b)) g f).2) ∧
    (bits_plus_follow b g f).1.e3_counter = 0 ∧
    (b :: List.replicate g.e3_counter (1 - b)).length = g.e3_counter + 1 ∧
    (ChannelOK g →
      bits_written (bits_plus_follow b g f).1 (bits_plus_follow b g f).2
        = bits_written g f ++ b :: List.replicate g.e3_counter (1 - b)) := by
  have hl : lnot b = 1 - b := by
    rcases hb with h | h <;> subst h <;> rfl
  have e := bits_plus_follow_eq b g f
  rw [hl] at e
  refine ⟨e, by rw [e], by simp, ?_⟩
  intro hg
  rw [e]
  have hbits : ∀ x ∈ b :: List.replicate g.e3_counter (1 - b), x ≤ 1 := by
    intro x hx
    rcases List.mem_cons.mp hx with h | h
    · omega
    · have := List.eq_of_mem_replicate h
      omega
  exact (write_bits_written _ g f hbits hg).1

/-- Witness for C7: bit `1` with three pending bits on a fresh channel. -/
theorem bits_plus_follow_spec_witness :
    ((1 : Nat) = 0 ∨ (1 : Nat) = 1) ∧
    ChannelOK { buffer := 0, bits_to_go := 8, e3_counter := 3 } ∧
    (bits_plus_follow 1 { buffer := 0, bits_to_go := 8, e3_counter := 3 } []).1.e3_counter = 0 ∧
    bits_written (bits_plus_follow 1 { buffer := 0, bits_to_go := 8, e3_counter := 3 } []).1
        (bits_plus_follow 1 { buffer := 0, bits_to_go := 8, e3_counter := 3 } []).2
      = bits_written { buffer := 0, bits_to_go := 8, e3_counter := 3 } []
          ++ 1 :: List.replicate 3 (1 - 1) :=
  ⟨Or.inr rfl, ⟨by decide, by decide, by decide⟩,
    (bits_plus_follow_spec 1 (Or.inr rfl) { buffer := 0, bits_to_go := 8, e3_counter := 3 } []).2.1,
    (bits_plus_follow_spec 1 (Or.inr rfl)
      { buffer := 0, bits_to_go := 8, e3_counter := 3 } []).2.2.2 ⟨by decide, by decide, by decide⟩⟩

/-- C1 fails on the code. For the one-byte input `0xFF`, `encode` writes the
three bytes `0x00 0xFF 0x02`, and `decode` run on them stops at once with
no output: with any fuel it never returns the input `0xFF`. The function
`input_bit` never decrements `bits_to_go`, so it reads only the first byte
of the stream. -/
theorem round_trip_fails :
    encode 20 [0xFF] = some [0, 0xFF, 2] ∧
    decode 20 [0, 0xFF, 2] = some [] ∧
    ∀ fuel, decode fuel [0, 0xFF, 2] ≠ some [0xFF] := by
  refine ⟨encode_byte_ff_run, decode_mono 1 20 (by decide) _ _ decode_byte_ff_run, ?_⟩
  intro fuel h
  have := decode_none_or_eq fuel 1 _ _ decode_byte_ff_run _ h
  exact absurd this (by decide)

/-- C2. Empty input: with at least 9 units of fuel `encode` of the empty
sequence produces a stream of at least one byte (the two bytes `0x00 0x02`)
and `decode` of that stream outputs zero bytes and stops. -/
theorem empty_input_round_trip (fuel : Nat) (hf : 9 ≤ fuel) :
    ∃ stream, encode fuel [] = some stream ∧ 1 ≤ stream.length ∧
      decode fuel stream = some [] :=
  ⟨[0, 2], encode_mono 9 fuel hf _ _ encode_empty_run, by decide,
    decode_mono 1 fuel (by omega) _ _ decode_empty_run⟩

/-- Witness for C2 with 9 units of fuel. -/
theorem empty_input_round_trip_witness :
    9 ≤ 9 ∧ ∃ stream, encode 9 [] = some stream ∧ 1 ≤ stream.length ∧
      decode 9 stream = some [] :=
  ⟨Nat.le_refl _, empty_input_round_trip 9 (Nat.le_refl _)⟩

/-- C3 fails on the code. `encode` of `"AAAB"` produces the five bytes
`125 255 252 54 68` (a non-empty stream whose length is not 4), but whatever
`decode` outputs on them starts with `0x42`, so it never outputs `"AAAB"`:
`input_bit` reads only the first byte of the stream. -/
theorem aaab_scenario_fails :
    encode 20 [0x41, 0x41, 0x41, 0x42] = some [125, 255, 252, 54, 68] ∧
    [125, 255, 252, 54, 68].length = 5 ∧
    (∀ fuel out, decode fuel [125, 255, 252, 54, 68] = some out → ∃ t, out = 0x42 :: t) ∧
    ∀ fuel, decode fuel [125, 255, 252, 54, 68] ≠ some [0x41, 0x41, 0x41, 0x42] := by
  refine ⟨encode_aaab_run, rfl, decode_aaab_starts_with_b, ?_⟩
  intro fuel h
  obtain ⟨t, ht⟩ := decode_aaab_starts_with_b fuel _ h
  exact absurd (List.cons.inj ht).1 (by decide)

/-- C8 fails on the code. Nine calls of `output_bit` with the bits
`0 0 0 0 0 0 0 0 1` followed by the flush write the two bytes `0x00 0x01`,
but nine calls of `input_bit` on them return `0` nine times: the ninth call
returns `0` where the bit written was `1`. On any file the bits handed out
are the bits of the first byte alone, and after any call of `input_bit` the
next call leaves the file untouched, because `bits_to_go` is never
decremented. -/
theorem bit_channel_round_trip_fails :
    flush_buffer
        (write_bits [0, 0, 0, 0, 0, 0, 0, 0, 1]
          { buffer := 0, bits_to_go := 8, e3_counter := 0 } []).1
        (write_bits [0, 0, 0, 0, 0, 0, 0, 0, 1]
          { buffer := 0, bits_to_go := 8, e3_counter := 0 } []).2 = [0, 1] ∧
    read_bits 9 { buffer := 0, bits_to_go := 0, e3_counter := 0 } [0, 1]
      = [0, 0, 0, 0, 0, 0, 0, 0, 0] ∧
    (∀ (n c : Nat) (rest : List Nat),
      read_bits n { buffer := 0, bits_to_go := 0, e3_counter := 0 } (c :: rest)
        = (List.range n).map (bit_of c)) ∧
    ∀ (g : BitState) (f : List Nat),
      (input_bit (input_bit g f).2.1 (input_bit g f).2.2).2.2 = (input_bit g f).2.2 := by
  refine ⟨by decide, by decide, fun n c rest => read_bits_first_byte n _ rfl c rest, ?_⟩
  intro g f
  have h : (input_bit g f).2.1.bits_to_go ≠ 0 := by
    unfold input_bit
    by_cases hz : g.bits_to_go = 0
    · simp [hz]
    · simp [hz]
  generalize (input_bit g f).2.1 = g1 at h
  generalize (input_bit g f).2.2 = f1
  unfold input_bit
  simp [h]

end ArithCoding

namespace ArithCoding

/-- C11 fails on the code. After 16126 calls `update_model(0)` the total has
reached the ceiling (`cum_freq[0] = 16383`) and symbol `0` has the count
`cum_freq[0] - cum_freq[1] = 16127`. The next call `update_model(1)` takes the
rescale branch and leaves symbol `0` with the count `1`, not with
`ceil(16127 / 2) = 8064`: the rescale halves `freq`, which `update_model`
never increments, so it resets every count to `1`. -/
theorem rescale_does_not_halve :
    Reachable long_run_model ∧
    rd long_run_model.cum_freq 0 ≥ MAX_FREQ ∧
    rd long_run_model.cum_freq 0 - rd long_run_model.cum_freq 1 = 16127 ∧
    (16127 + 1) / 2 = 8064 ∧
    rd (update_model 1 long_run_model).cum_freq 0
      - rd (update_model 1 long_run_model).cum_freq 1 = 1 := by
  have hr : Reachable long_run_model :=
    reachable_run_updates _ _ Reachable.init
      (fun s hs => by rw [List.eq_of_mem_replicate hs]; exact Nat.zero_le _)
  have inv := modelInv_of_reachable _ hr
  have e := run_updates_zero 16126 initialize_model modelInv_initialize_model
    (by rw [rd_initialize_model_cum_freq 0 (by omega)])
  have e0 : rd long_run_model.cum_freq 0 = 16383 := by
    unfold long_run_model
    rw [e 0, rd_initialize_model_cum_freq 0 (by omega)]
    rfl
  have e1 : rd long_run_model.cum_freq 1 = 256 := by
    unfold long_run_model
    rw [e 1, rd_initialize_model_cum_freq 1 (by omega)]
    rfl
  have hge : rd long_run_model.cum_freq 0 ≥ MAX_FREQ := by rw [e0]
  refine ⟨hr, hge, by rw [e0, e1], rfl, ?_⟩
  rw [update_model_of_ge _ inv 1 (by decide) hge 0 (by decide),
    update_model_of_ge _ inv 1 (by decide) hge 1 (by decide)]
  rfl

/-- C14. Termination bits land in the final interval. For a final interval
(`low < HALF <= high <= 0xFFFF`, not E3) and pending count `N`, the closing
step of `encode` returns a file of whole bytes whose bits, read as
`input_bit` reads them, are the bits written before, then `0`, `1` and `N`
further `1`s when `low < ONE_QUARTER`, or `1`, `0` and `N` further `0`s
otherwise, then between 1 and 8 zero bits that fill the last byte. Every
16-bit value that starts with those two bits, built as `decode` builds
`value` from 16 bits or given as a number `v` with `v / 2^14 = 1`,
respectively `= 2`, lies in `[low, high]`; the one padded with 14 zero bits
is `ONE_QUARTER`, respectively `HALF`. -/
theorem termination_bits (s : EncState) (h1 : s.low < HALF) (h2 : HALF ≤ s.high)
    (h3 : s.high ≤ MAX_VALUE) (h4 : ¬ (s.low ≥ ONE_QUARTER ∧ s.high < THREE_QUARTERS))
    (hg : ChannelOK s.g) :
    (s.low < ONE_QUARTER →
      (∃ pad, 1 ≤ pad ∧ pad ≤ 8 ∧
        (encode_finish s).flatMap byte_bits
          = bits_written s.g s.out ++ (0 :: 1 :: List.replicate s.g.e3_counter 1)
            ++ List.replicate pad 0 ∧
        8 * (encode_finish s).length
          = (bits_written s.g s.out).length + (s.g.e3_counter + 2) + pad) ∧
      encode_finish s
        = flush_buffer
            (bits_plus_follow 0 { s.g with e3_counter := s.g.e3_counter + 1 } s.out).1
            (bits_plus_follow 0 { s.g with e3_counter := s.g.e3_counter + 1 } s.out).2 ∧
      bits_written
          (bits_plus_follow 0 { s.g with e3_counter := s.g.e3_counter + 1 } s.out).1
          (bits_plus_follow 0 { s.g with e3_counter := s.g.e3_counter + 1 } s.out).2
        = bits_written s.g s.out ++ 0 :: 1 :: List.replicate s.g.e3_counter 1 ∧
      (∀ v, v / ONE_QUARTER = 1 → s.low ≤ v ∧ v ≤ s.high) ∧
      (∀ rest : List Nat, rest.length = 14 → (∀ b ∈ rest, b ≤ 1) →
        s.low ≤ value_of_bits (0 :: 1 :: rest) ∧ value_of_bits (0 :: 1 :: rest) ≤ s.high) ∧
      value_of_bits (0 :: 1 :: List.replicate 14 0) = ONE_QUARTER ∧
      s.low ≤ ONE_QUARTER ∧ ONE_QUARTER ≤ s.high) ∧
    (¬ s.low < ONE_QUARTER →
      (∃ pad, 1 ≤ pad ∧ pad ≤ 8 ∧
        (encode_finish s).flatMap byte_bits
          = bits_written s.g s.out ++ (1 :: 0 :: List.replicate s.g.e3_counter 0)
            ++ List.replicate pad 0 ∧
        8 * (encode_finish s).length
          = (bits_written s.g s.out).length + (s.g.e3_counter + 2) + pad) ∧
      encode_finish s
        = flush_buffer
            (bits_plus_follow 1 { s.g with e3_counter := s.g.e3_counter + 1 } s.out).1
            (bits_plus_follow 1 { s.g with e3_counter := s.g.e3_counter + 1 } s.out).2 ∧
      bits_written
          (bits_plus_follow 1 { s.g with e3_counter := s.g.e3_counter + 1 } s.out).1
          (bits_plus_follow 1 { s.g with e3_counter := s.g.e3_counter + 1 } s.out).2
        = bits_written s.g s.out ++ 1 :: 0 :: List.replicate s.g.e3_counter 0 ∧
      (∀ v, v / ONE_QUARTER = 2 → s.low ≤ v ∧ v ≤ s.high) ∧
      (∀ rest : List Nat, rest.length = 14 → (∀ b ∈ rest, b ≤ 1) →
        s.low ≤ value_of_bits (1 :: 0 :: rest) ∧ value_of_bits (1 :: 0 :: rest) ≤ s.high) ∧
      value_of_bits (1 :: 0 :: List.replicate 14 0) = HALF ∧
      s.low ≤ HALF ∧ HALF ≤ s.high) := by
  rw [HALF_eq] at h1 h2
  rw [MAX_VALUE_eq] at h3
  rw [ONE_QUARTER_eq, THREE_QUARTERS_eq] at h4
  have hg2 : ChannelOK { s.g with e3_counter := s.g.e3_counter + 1 } :=
    ⟨hg.pos, hg.le, hg.byte⟩
  have hw : ∀ b, b ≤ 1 →
      bits_written
          (bits_plus_follow b { s.g with e3_counter := s.g.e3_counter + 1 } s.out).1
          (bits_plus_follow b { s.g with e3_counter := s.g.e3_counter + 1 } s.out).2
        = bits_written s.g s.out ++ b :: lnot b :: List.replicate s.g.e3_counter (lnot b) := by
    intro b hb
    rw [bits_plus_follow_eq]
    have hbits : ∀ x ∈ b :: List.replicate (s.g.e3_counter + 1) (lnot b), x ≤ 1 := by
      intro x hx
      rcases List.mem_cons.mp hx with h | h
      · omega
      · rw [List.eq_of_mem_replicate h]
        unfold lnot
        split_ifs <;> omega
    have := (write_bits_written _ { s.g with e3_counter := s.g.e3_counter + 1 } s.out
      hbits hg2).1
    rw [List.replicate_succ] at this
    exact this
  have hfile : ∀ b, b ≤ 1 →
      encode_finish s
        = flush_buffer
            (bits_plus_follow b { s.g with e3_counter := s.g.e3_counter + 1 } s.out).1
            (bits_plus_follow b { s.g with e3_counter := s.g.e3_counter + 1 } s.out).2 →
      ∃ pad, 1 ≤ pad ∧ pad ≤ 8 ∧
        (encode_finish s).flatMap byte_bits
          = bits_written s.g s.out ++ (b :: lnot b :: List.replicate s.g.e3_counter (lnot b))
            ++ List.replicate pad 0 ∧
        8 * (encode_finish s).length
          = (bits_written s.g s.out).length + (s.g.e3_counter + 2) + pad := by
    intro b hb he
    obtain ⟨pad, p1, p2, p3⟩ := flush_after_follow b hb
      { s.g with e3_counter := s.g.e3_counter + 1 } hg2 s.out
    rw [← he] at p3
    simp only [List.replicate_succ] at p3
    have e : bits_written { s.g with e3_counter := s.g.e3_counter + 1 } s.out
        = bits_written s.g s.out := rfl
    rw [e] at p3
    refine ⟨pad, p1, p2, p3, ?_⟩
    have hlen := congrArg List.length p3
    rw [length_flatMap_byte_bits] at hlen
    simp only [List.length_append, List.length_cons, List.length_replicate] at hlen
    omega
  have hval : ∀ (b1 b0 : Nat) (rest : List Nat), rest.length = 14 → (∀ b ∈ rest, b ≤ 1) →
      value_of_bits (b1 :: b0 :: rest) / ONE_QUARTER = 2 * b1 + b0 := value_of_two_bits
  constructor
  · intro hq
    have hfin : encode_finish s
        = flush_buffer
            (bits_plus_follow 0 { s.g with e3_counter := s.g.e3_counter + 1 } s.out).1
            (bits_plus_follow 0 { s.g with e3_counter := s.g.e3_counter + 1 } s.out).2 := by
      unfold encode_finish
      simp only [hq, if_true]
    refine ⟨hfile 0 (by decide) hfin, hfin, hw 0 (by decide), ?_, ?_, by decide, ?_, ?_⟩
    · intro v hv
      rw [ONE_QUARTER_eq] at hq hv
      omega
    · intro rest hl hb
      have hv := hval 0 1 rest hl hb
      rw [ONE_QUARTER_eq] at hq hv
      omega
    · exact Nat.le_of_lt hq
    · rw [ONE_QUARTER_eq]; omega
  · intro hq
    have hfin : encode_finish s
        = flush_buffer
            (bits_plus_follow 1 { s.g with e3_counter := s.g.e3_counter + 1 } s.out).1
            (bits_plus_follow 1 { s.g with e3_counter := s.g.e3_counter + 1 } s.out).2 := by
      unfold encode_finish
      simp only [hq, if_false]
    refine ⟨hfile 1 (by decide) hfin, hfin, hw 1 (by decide), ?_, ?_, by decide, ?_, ?_⟩
    · intro v hv
      rw [ONE_QUARTER_eq] at hq hv
      omega
    · intro rest hl hb
      have hv := hval 1 0 rest hl hb
      rw [ONE_QUARTER_eq] at hq hv
      omega
    · rw [HALF_eq]; omega
    · rw [HALF_eq]; exact h2

/-- Witness for C14: the final state of `encode` on the empty input, where
the file holds the byte `0x00`, nothing is pending and the interval is
`0 .. 65279`. -/
theorem termination_bits_witness :
    (0 < HALF ∧ HALF ≤ 65279 ∧ 65279 ≤ MAX_VALUE ∧
      ¬ (0 ≥ ONE_QUARTER ∧ 65279 < THREE_QUARTERS) ∧
      ChannelOK { buffer := 0, bits_to_go := 8, e3_counter := 0 } ∧ 0 < ONE_QUARTER) ∧
    ∃ pad, 1 ≤ pad ∧ pad ≤ 8 ∧
      (encode_finish
        { low := 0, high := 65279, g := { buffer := 0, bits_to_go := 8, e3_counter := 0 },
          out := [0] }).flatMap byte_bits
        = bits_written { buffer := 0, bits_to_go := 8, e3_counter := 0 } [0]
          ++ (0 :: 1 :: List.replicate 0 1) ++ List.replicate pad 0 ∧
      8 * (encode_finish
        { low := 0, high := 65279, g := { buffer := 0, bits_to_go := 8, e3_counter := 0 },
          out := [0] }).length
        = (bits_written { buffer := 0, bits_to_go := 8, e3_counter := 0 } [0]).length
          + (0 + 2) + pad :=
  ⟨⟨by decide, by decide, by decide, by decide, ⟨by decide, by decide, by decide⟩, by decide⟩,
    ((termination_bits
      { low := 0, high := 65279, g := { buffer := 0, bits_to_go := 8, e3_counter := 0 },
        out := [0] }
      (by decide) (by decide) (by decide) (by decide)
      ⟨by decide, by decide, by decide⟩).1 (by decide)).1⟩

/-- C15 as stated fails: `MAX_FREQ * NO_OF_SYMBOLS = 4210431` is not below
`2 ^ CODE_VALUE_BITS = 65536`. -/
theorem config_product_not_below :
    ¬ (MAX_FREQ * NO_OF_SYMBOLS < 2 ^ CODE_VALUE_BITS) := by
  decide

/-- C15 amended. The constants are `MAX_FREQ = 16383`, `NO_OF_SYMBOLS = 257`,
`CODE_VALUE_BITS = 16`; the ceiling is below a quarter of the code range,
`MAX_FREQ = 2 ^ (CODE_VALUE_BITS - 2) - 1 < ONE_QUARTER`, the alphabet fits
under the ceiling, and a range times a count stays below `2 ^ 30`. -/
theorem config_constraint :
    MAX_FREQ = 16383 ∧ NO_OF_SYMBOLS = 257 ∧ CODE_VALUE_BITS = 16 ∧
    MAX_FREQ = 2 ^ (CODE_VALUE_BITS - 2) - 1 ∧ MAX_FREQ < ONE_QUARTER ∧
    NO_OF_SYMBOLS ≤ MAX_FREQ ∧ MAX_FREQ * 2 ^ CODE_VALUE_BITS < 2 ^ 30 := by
  decide

/-- C16. No overflow in the range multiplication. In every state at the head
of the main loop of `encode` or `decode`, `range = high - low + 1` satisfies
`1 <= range <= 2^16`, the products `range * cum_freq[s]` are below `2^30` for
every index `s` of the table, and so is `(value - low + 1) * cum_freq[0]` for
every `value` with `low <= value <= high`. -/
theorem no_overflow (m : Model) (low high : Nat) (h : CoderReach m low high) :
    range_of low high = high - low + 1 ∧
    1 ≤ range_of low high ∧ range_of low high ≤ 2 ^ 16 ∧
    (∀ s, s ≤ NO_OF_SYMBOLS → range_of low high * rd m.cum_freq s < 2 ^ 30) ∧
    (∀ value, low ≤ value → value ≤ high →
      (usub value low + 1) * rd m.cum_freq 0 < 2 ^ 30) := by
  obtain ⟨hm, hr⟩ := coderReach_inv m low high h
  have hr2 := hr
  rw [renormalized_iff] at hr2
  have h1 : low ≤ high := by omega
  have h2 : high ≤ MAX_VALUE := hr.2.1
  exact ⟨range_of_eq low high h1 h2,
    products_bounded m (modelInv_of_reachable m hm) low high h1 h2⟩

/-- Witness for C16: the start state of both loops. -/
theorem no_overflow_witness :
    CoderReach initialize_model 0 MAX_VALUE ∧
    range_of 0 MAX_VALUE * rd initialize_model.cum_freq 0 < 2 ^ 30 :=
  ⟨CoderReach.start,
    (no_overflow initialize_model 0 MAX_VALUE CoderReach.start).2.2.2.1 0 (by decide)⟩

/-- C17. Decoder count inverts encoder narrowing. In a reachable model, for
an interval `low <= high <= 0xFFFF` with `range = high - low + 1`, a symbol
`s` in `0..256` and a value `v` in the sub-interval of `s`,
`low + range*cum_freq[s+1]/total <= v < low + range*cum_freq[s]/total`, the
count `((v - low + 1)*total - 1) / range` of the decoder satisfies
`cum_freq[s+1] <= count < cum_freq[s]`, and the search returns `s`. -/
theorem count_inverts_narrowing (m : Model) (hm : Reachable m) (low high : Nat)
    (h1 : low ≤ high) (h2 : high ≤ MAX_VALUE) (s : Nat) (hs : s ≤ EOF_SYMBOL) (v : Nat)
    (hv1 : low + range_of low high * rd m.cum_freq (s + 1) / rd m.cum_freq 0 ≤ v)
    (hv2 : v < low + range_of low high * rd m.cum_freq s / rd m.cum_freq 0) :
    range_of low high = high - low + 1 ∧
    count_of m low v (range_of low high)
      = ((v - low + 1) * rd m.cum_freq 0 - 1) / (high - low + 1) ∧
    rd m.cum_freq (s + 1) ≤ count_of m low v (range_of low high) ∧
    count_of m low v (range_of low high) < rd m.cum_freq s ∧
    locate m (count_of m low v (range_of low high)) = s := by
  have inv := modelInv_of_reachable m hm
  have hR := range_of_eq low high h1 h2
  have hT : 257 ≤ rd m.cum_freq 0 := inv.total_ge
  have hs2 : s ≤ 256 := hs
  have hle := cum_freq_le_of_le m inv 0 s (Nat.zero_le _)
    (by simp only [NO_OF_SYMBOLS, NO_OF_CHARS]; omega)
  have hX : range_of low high * rd m.cum_freq s / rd m.cum_freq 0 ≤ range_of low high := by
    calc range_of low high * rd m.cum_freq s / rd m.cum_freq 0
        ≤ range_of low high * rd m.cum_freq 0 / rd m.cum_freq 0 :=
          Nat.div_le_div_right (Nat.mul_le_mul_left _ hle)
      _ = range_of low high := Nat.mul_div_cancel _ (by omega)
  have h3 : high ≤ 65535 := by rw [MAX_VALUE_eq] at h2; exact h2
  have hlow : low ≤ v := le_trans (Nat.le_add_right _ _) hv1
  have hu : usub v low = v - low := usub_eq v low hlow (by simp only [UINT_MOD]; omega)
  have hc : count_of m low v (range_of low high)
      = ((v - low + 1) * rd m.cum_freq 0 - 1) / range_of low high := by
    unfold count_of
    rw [hu]
  have a1 : rd m.cum_freq (s + 1) ≤ count_of m low v (range_of low high) := by
    rw [hc, le_count_iff _ _ _ _ (by omega) (by omega)]
    generalize range_of low high * rd m.cum_freq (s + 1) / rd m.cum_freq 0 = A at hv1
    omega
  have a2 : count_of m low v (range_of low high) < rd m.cum_freq s := by
    rw [hc, count_lt_iff _ _ _ _ (by omega) (by omega)]
    generalize range_of low high * rd m.cum_freq s / rd m.cum_freq 0 = B at hv2 hX
    omega
  exact ⟨hR, by rw [hc, hR], a1, a2, locate_eq_of_owner m inv _ s hs a1 a2⟩

/-- Witness for C17: the value `48800` in the sub-interval of the byte `0x41`
of the start interval. -/
theorem count_inverts_narrowing_witness :
    (Reachable initialize_model ∧ 0 ≤ MAX_VALUE ∧ MAX_VALUE ≤ MAX_VALUE ∧ 0x41 ≤ EOF_SYMBOL ∧
      0 + range_of 0 MAX_VALUE * rd initialize_model.cum_freq (0x41 + 1)
        / rd initialize_model.cum_freq 0 ≤ 48800 ∧
      48800 < 0 + range_of 0 MAX_VALUE * rd initialize_model.cum_freq 0x41
        / rd initialize_model.cum_freq 0) ∧
    locate initialize_model (count_of initialize_model 0 48800 (range_of 0 MAX_VALUE)) = 0x41 :=
  have e0 : rd initialize_model.cum_freq 0 = 257 := rd_initialize_model_cum_freq 0 (by omega)
  have e1 : rd initialize_model.cum_freq (0x41 + 1) = 191 :=
    rd_initialize_model_cum_freq (0x41 + 1) (by omega)
  have e2 : rd initialize_model.cum_freq 0x41 = 192 :=
    rd_initialize_model_cum_freq 0x41 (by omega)
  have a1 : 0 + range_of 0 MAX_VALUE * rd initialize_model.cum_freq (0x41 + 1)
      / rd initialize_model.cum_freq 0 ≤ 48800 := by rw [e0, e1]; decide
  have a2 : 48800 < 0 + range_of 0 MAX_VALUE * rd initialize_model.cum_freq 0x41
      / rd initialize_model.cum_freq 0 := by rw [e0, e2]; decide
  ⟨⟨Reachable.init, Nat.zero_le _, Nat.le_refl _, by decide, a1, a2⟩,
    (count_inverts_narrowing initialize_model Reachable.init 0 MAX_VALUE (Nat.zero_le _)
      (Nat.le_refl _) 0x41 (by decide) 48800 a1 a2).2.2.2.2⟩

/-- C18. Narrowing partitions the interval. In a reachable model, for an
interval `low <= high <= 0xFFFF` whose range is at least the total, the
sub-intervals `[low + range*cum_freq[s+1]/total, low + range*cum_freq[s]/total - 1]`
computed by the narrowing statements for `s = 0..256` are non-empty and lie
in `[low, high]`; the sub-interval of a larger symbol lies entirely below
that of a smaller one, so they are pairwise disjoint; every `v` in
`[low, high]` is in one of them; the sub-interval of `0` ends at `high` and
that of `256` starts at `low`. After every renormalization the range exceeds
`ONE_QUARTER > MAX_FREQ` and so is at least the total. -/
theorem narrowing_partitions (m : Model) (hm : Reachable m) (low high : Nat)
    (h1 : low ≤ high) (h2 : high ≤ MAX_VALUE) (h3 : rd m.cum_freq 0 ≤ range_of low high) :
    (∀ s, s ≤ EOF_SYMBOL →
      narrow_low m low (range_of low high) s
        = low + range_of low high * rd m.cum_freq (s + 1) / rd m.cum_freq 0 ∧
      narrow_high m low (range_of low high) s + 1
        = low + range_of low high * rd m.cum_freq s / rd m.cum_freq 0 ∧
      low ≤ narrow_low m low (range_of low high) s ∧
      narrow_low m low (range_of low high) s ≤ narrow_high m low (range_of low high) s ∧
      narrow_high m low (range_of low high) s ≤ high) ∧
    (∀ s t, s ≤ EOF_SYMBOL → t ≤ EOF_SYMBOL → s < t →
      narrow_high m low (range_of low high) t < narrow_low m low (range_of low high) s) ∧
    (∀ v, low ≤ v → v ≤ high → ∃ s, s ≤ EOF_SYMBOL ∧
      narrow_low m low (range_of low high) s ≤ v ∧
      v ≤ narrow_high m low (range_of low high) s) ∧
    narrow_high m low (range_of low high) 0 = high ∧
    narrow_low m low (range_of low high) EOF_SYMBOL = low ∧
    (∀ l h, Renormalized l h →
      ONE_QUARTER < range_of l h ∧ MAX_FREQ < ONE_QUARTER ∧
      rd m.cum_freq 0 ≤ range_of l h) := by
  have inv := modelInv_of_reachable m hm
  have hR := range_of_eq low high h1 h2
  have hT : 257 ≤ rd m.cum_freq 0 := inv.total_ge
  have hTpos : 0 < rd m.cum_freq 0 := by omega
  have h65 : high ≤ 65535 := by rw [MAX_VALUE_eq] at h2; exact h2
  have F := fun s hs => narrow_formulas m inv s low high hs h1 h2 h3
  refine ⟨?_, ?_, ?_, ?_, ?_, ?_⟩
  · intro s hs
    obtain ⟨f1, f2, f3, f4⟩ := F s hs
    exact ⟨f1, f2, by rw [f1]; exact Nat.le_add_right _ _, f3, f4⟩
  · intro s t hs ht hst
    obtain ⟨f1, _, _, _⟩ := F s hs
    obtain ⟨_, g2, _, _⟩ := F t ht
    have ht2 : t ≤ 256 := ht
    have hc := cum_freq_le_of_le m inv (s + 1) t (by omega)
      (by simp only [NO_OF_SYMBOLS, NO_OF_CHARS]; omega)
    have hd : range_of low high * rd m.cum_freq t / rd m.cum_freq 0
        ≤ range_of low high * rd m.cum_freq (s + 1) / rd m.cum_freq 0 :=
      Nat.div_le_div_right (Nat.mul_le_mul_left _ hc)
    generalize range_of low high * rd m.cum_freq t / rd m.cum_freq 0 = A at g2 hd
    generalize range_of low high * rd m.cum_freq (s + 1) / rd m.cum_freq 0 = B at f1 hd
    omega
  · intro v hv1 hv2
    have hu : usub v low = v - low := usub_eq v low hv1 (by simp only [UINT_MOD]; omega)
    have hc : count_of m low v (range_of low high)
        = ((v - low + 1) * rd m.cum_freq 0 - 1) / range_of low high := by
      unfold count_of
      rw [hu]
    have hlt : count_of m low v (range_of low high) < rd m.cum_freq 0 := by
      rw [hc, count_lt_iff _ _ _ _ (by omega) hTpos, Nat.mul_div_cancel _ hTpos]
      omega
    obtain ⟨b1, b2, b3⟩ := locate_spec m inv _ hlt
    generalize locate m (count_of m low v (range_of low high)) = s at b1 b2 b3
    rw [hc] at b2 b3
    obtain ⟨f1, f2, _, _⟩ := F s b1
    rw [le_count_iff _ _ _ _ (by omega) hTpos] at b2
    rw [count_lt_iff _ _ _ _ (by omega) hTpos] at b3
    generalize range_of low high * rd m.cum_freq (s + 1) / rd m.cum_freq 0 = A at f1 b2
    generalize range_of low high * rd m.cum_freq s / rd m.cum_freq 0 = B at f2 b3
    exact ⟨s, b1, by omega, by omega⟩
  · obtain ⟨_, f2, _, _⟩ := F 0 (Nat.zero_le _)
    rw [Nat.mul_div_cancel _ hTpos] at f2
    omega
  · obtain ⟨f1, _, _, _⟩ := F EOF_SYMBOL (Nat.le_refl _)
    have : rd m.cum_freq (EOF_SYMBOL + 1) = 0 := inv.cum_last
    rw [f1, this, Nat.mul_zero, Nat.zero_div]
    rfl
  · intro l h hr
    have hr2 := hr
    rw [renormalized_iff] at hr2
    have e := range_of_eq l h (by omega) hr.2.1
    have hT2 : rd m.cum_freq 0 ≤ 16383 := inv.total_le
    rw [e, ONE_QUARTER_eq]
    simp only [MAX_FREQ]
    omega

/-- Witness for C18: the start interval and the freshly initialised model. -/
theorem narrowing_partitions_witness :
    (Reachable initialize_model ∧ 0 ≤ MAX_VALUE ∧ MAX_VALUE ≤ MAX_VALUE ∧
      rd initialize_model.cum_freq 0 ≤ range_of 0 MAX_VALUE) ∧
    narrow_high initialize_model 0 (range_of 0 MAX_VALUE) 0 = MAX_VALUE ∧
    narrow_low initialize_model 0 (range_of 0 MAX_VALUE) EOF_SYMBOL = 0 :=
  have a : rd initialize_model.cum_freq 0 ≤ range_of 0 MAX_VALUE := by
    rw [rd_initialize_model_cum_freq 0 (by omega)]; decide
  ⟨⟨Reachable.init, Nat.zero_le _, Nat.le_refl _, a⟩,
    (narrowing_partitions initialize_model Reachable.init 0 MAX_VALUE (Nat.zero_le _)
      (Nat.le_refl _) a).2.2.2.1,
    (narrowing_partitions initialize_model Reachable.init 0 MAX_VALUE (Nat.zero_le _)
      (Nat.le_refl _) a).2.2.2.2.1⟩

/-- C19. The renormalization loop terminates. For every interval with
`low <= high <= 0xFFFF`, any bit I/O state, files and value register, the
loops of `encode` and of `decode` make some number `k <= 16` of firing passes
and stop: `k` units of fuel are too few, every fuel above `k` gives the same
result, and the result's range is `2^k` times the range at entry, which is
at most `2^16`. -/
theorem renorm_terminates (low high : Nat) (h1 : low ≤ high) (h2 : high ≤ MAX_VALUE) :
    (∀ (g : BitState) (out : List Nat), ∃ k, k ≤ 16 ∧
      encode_renorm k { low := low, high := high, g := g, out := out } = none ∧
      ∃ r, (∀ fuel, k + 1 ≤ fuel →
          encode_renorm fuel { low := low, high := high, g := g, out := out } = some r) ∧
        r.high - r.low + 1 = 2 ^ k * (high - low + 1) ∧ r.high - r.low + 1 ≤ 2 ^ 16) ∧
    (∀ (value : Nat) (g : BitState) (inp : List Nat), ∃ k, k ≤ 16 ∧
      decode_renorm k { low := low, high := high, value := value, g := g, inp := inp } = none ∧
      ∃ r, (∀ fuel, k + 1 ≤ fuel →
          decode_renorm fuel { low := low, high := high, value := value, g := g, inp := inp }
            = some r) ∧
        r.high - r.low + 1 = 2 ^ k * (high - low + 1) ∧ r.high - r.low + 1 ≤ 2 ^ 16) := by
  rw [MAX_VALUE_eq] at h2
  have hf : ∀ a b : Nat, 65536 < (a - b + 1) * 2 ^ (16 + 1) := fun a b =>
    fuel_enough b a 17 (Nat.le_refl _)
  constructor
  · intro g out
    obtain ⟨k, hk, e1, r, e2, e3, e4⟩ :=
      encode_renorm_count 16 { low := low, high := high, g := g, out := out } h1 h2 (hf _ _)
    rw [renormalized_iff] at e4
    exact ⟨k, hk, e1, r, fun fuel hfuel => encode_renorm_mono (k + 1) _ r e2 fuel hfuel, e3,
      by norm_num; omega⟩
  · intro value g inp
    obtain ⟨k, hk, e1, r, e2, e3, e4⟩ :=
      decode_renorm_count 16 { low := low, high := high, value := value, g := g, inp := inp }
        h1 h2 (hf _ _)
    rw [renormalized_iff] at e4
    exact ⟨k, hk, e1, r, fun fuel hfuel => decode_renorm_mono (k + 1) _ r e2 fuel hfuel, e3,
      by norm_num; omega⟩

/-- Witness for C19: the interval `0 .. 0`, which needs all 16 passes. -/
theorem renorm_terminates_witness :
    (0 ≤ 0 ∧ 0 ≤ MAX_VALUE) ∧
    ∃ k, k ≤ 16 ∧
      encode_renorm k
        { low := 0, high := 0, g := { buffer := 0, bits_to_go := 8, e3_counter := 0 },
          out := [] } = none ∧
      ∃ r, (∀ fuel, k + 1 ≤ fuel →
          encode_renorm fuel
            { low := 0, high := 0, g := { buffer := 0, bits_to_go := 8, e3_counter := 0 },
              out := [] } = some r) ∧
        r.high - r.low + 1 = 2 ^ k * (0 - 0 + 1) ∧ r.high - r.low + 1 ≤ 2 ^ 16 :=
  ⟨⟨Nat.le_refl _, Nat.zero_le _⟩,
    (renorm_terminates 0 0 (Nat.le_refl _) (Nat.zero_le _)).1
      { buffer := 0, bits_to_go := 8, e3_counter := 0 } []⟩

end ArithCoding

/-! ## Radix sort: the claim -/

namespace RadixSort

/-- The example array of the usual presentation of the algorithm, sorted in
three passes. -/
theorem radixSort_example :
    radixSort 10 [170, 45, 75, 90, 802, 24, 2, 66] 8
      = some [2, 24, 45, 66, 75, 90, 170, 802] := by decide

/-- A negative element makes `(arr[i] / exp) % 10` a negative index into
`count`. -/
theorem radixSort_negative_undefined (fuel : Nat) : radixSort fuel [3, -1, 2] 3 = none := by
  cases fuel with
  | zero => rfl
  | succ f => rfl

/-- With the maximum `1000000000` the pass for `exp = 1000000000` runs and
the following `exp *= 10` leaves the range of `int`. -/
theorem radixSort_overflow_undefined : radixSort 20 [3, 1000000000, 2] 3 = none := by decide

/-- C20. Radix sort utility. For a non-empty array of `n` ints that are all
between `0` and `999999999`, `radixSort(arr, n)` returns (10 units of fuel or
more are enough, and no index leaves its array and `exp` does not overflow)
with `arr` in ascending order and a permutation of its original contents.
A `countSort` pass for any `exp >= 1` returns the stable sort by the digit
`(arr[i] / exp) % 10`: a permutation of `arr`, ordered by that digit, in
which the elements of each digit keep the order they had in `arr`. -/
theorem radixSort_sorts (arr : List Int) (n : Nat) (hn : arr.length = n) (hpos : 0 < n)
    (hb : ∀ x, x ∈ arr → 0 ≤ x ∧ x ≤ 999999999) :
    (∀ fuel, 10 ≤ fuel → ∃ r, radixSort fuel arr n = some r ∧
      r.Pairwise (fun a b => a ≤ b) ∧ r.Perm arr) ∧
    (∀ exp, 0 < exp → ∃ r, countSort arr n exp = some r ∧ r = stable_by_digit exp arr ∧
      r.Perm arr ∧ r.Pairwise (fun a b => digit a exp ≤ digit b exp) ∧
      ∀ k, with_digit exp k r = with_digit exp k arr) := by
  constructor
  · intro fuel hf
    exact radixSort_spec arr n hn hpos hb fuel hf
  · intro exp he
    have hd : ∀ x, x ∈ arr → 0 ≤ digit x exp ∧ digit x exp < 10 :=
      fun x hx => digit_bounds x exp (hb x hx).1 he
    have hd1 : ∀ x, x ∈ arr → 0 ≤ digit x exp := fun x hx => (hd x hx).1
    refine ⟨stable_by_digit exp arr, countSort_spec arr n exp hn hd, rfl,
      stable_by_digit_perm exp arr hd, stable_by_digit_pairwise exp arr hd1, ?_⟩
    intro k
    unfold stable_by_digit
    rw [with_digit_groups]
    by_cases hk : k < 10
    · rw [if_pos hk]
    · rw [if_neg hk]
      symm
      unfold with_digit
      rw [List.filter_eq_nil_iff]
      intro x hx
      have := (hd x hx).2
      simp only [decide_eq_true_eq]
      omega

/-- Witness for C20: the array `170 45 75 90 802 24 2 66`. -/
theorem radixSort_sorts_witness :
    (([170, 45, 75, 90, 802, 24, 2, 66] : List Int).length = 8 ∧ 0 < 8 ∧
      ∀ x, x ∈ ([170, 45, 75, 90, 802, 24, 2, 66] : List Int) → 0 ≤ x ∧ x ≤ 999999999) ∧
    ∃ r, radixSort 10 [170, 45, 75, 90, 802, 24, 2, 66] 8 = some r ∧
      r.Pairwise (fun a b => a ≤ b) ∧ r.Perm [170, 45, 75, 90, 802, 24, 2, 66] :=
  ⟨⟨rfl, by decide, by decide⟩,
    (radixSort_sorts [170, 45, 75, 90, 802, 24, 2, 66] 8 rfl (by decide) (by decide)).1 10
      (Nat.le_refl _)⟩

end RadixSort
